import Mathlib

/-!
# Verification of the slotted-page B+tree core (`src/btree.hpp`)

This file gives a shallow embedding of the `PageX<CompareT>` slotted-page
operations and of the leaf-insert path of `BtreeMap` from `src/btree.hpp`
(the third, current revision of the header, `PAGE_SIZE = 1024`), and proves
properties of those definitions.

Modelling choices:
* A key or a value is its byte string, modelled as `List Nat`; `keySize` and
  `valueSize` are the list lengths.
* The record region of the page buffer is not modelled byte-by-byte: each
  stub carries, next to its `off` field, the key bytes and value bytes its
  `[off, off + keySize + valueSize)` range holds.  This is faithful because
  (i) `insert` writes a fresh record at `recEndOff`, past every range any
  live stub points to, (ii) `eraseStub` does not touch record bytes, and
  (iii) `updateStub`/`updateKeyStub` rewrite only their own stub's range.
* `CompareT` is a parameter `cmp : List Nat → List Nat → Int` exactly like
  the C++ template parameter; `CmpLaws` states the comparison laws a sane
  three-way comparison function satisfies, and `cmpB` is a concrete
  byte-lexicographic instance used for the concrete evaluations.
* Machine integers (`uint16_t` offsets and sizes) are modelled as `Nat`.
  Every subtraction performed by the code is backed, on the states the
  theorems quantify over, by the page invariants (`PageWf`), so no wrap
  around `2^16` can occur and `Nat` subtraction agrees with `uint16_t`.
-/

set_option autoImplicit false
set_option maxRecDepth 100000

namespace Btree

/-- `PAGE_SIZE` from the source (current revision): 1024 bytes. -/
def PAGE_SIZE : Nat := 1024

/-- `sizeof(struct header)`: `recEndOff`, `stubBgnOff`, `level`,
`totalDataSize` (2 bytes each) and the packed `parent` pointer (8 bytes). -/
def HEADER_SIZE : Nat := 16

/-- `sizeof(struct stub)`: three packed `uint16_t` fields. -/
def STUB_SIZE : Nat := 6

/-- `EMPTY = uint16_t(-1)`. -/
def EMPTY : Nat := 65535
/-- `LOWER = uint16_t(-2)`. -/
def LOWER : Nat := 65534
/-- `UPPER = uint16_t(-3)`. -/
def UPPER : Nat := 65533

/-- `isNormalIndex(idx)`: not one of the three sentinels. -/
def isNormalIndex (idx : Nat) : Bool :=
  idx ≠ EMPTY && idx ≠ LOWER && idx ≠ UPPER

/-- `enum class BtreeError`. -/
inductive BtreeError where
  | KEY_EXISTS
  | KEY_NOT_EXISTS
  | NO_SPACE
  | INVALID_KEY
deriving DecidableEq, Repr

/-- A stub (slot) together with the record bytes its range holds.
`off` is the record offset in the page; the key and value byte strings
stand for the `keySize`/`valueSize`-byte ranges at `off`. -/
structure Stub where
  off : Nat
  key : List Nat
  value : List Nat
deriving DecidableEq, Repr

/-- Default stub used by total list indexing. -/
def dStub : Stub := ⟨0, [], []⟩

/-- A page: the header fields plus the stub directory.  `stubBgnOff` is not
stored: in the source it determines `numStub` and vice versa, so it is the
derived quantity `PAGE_SIZE - STUB_SIZE * stubs.length`.  `parent` is an
abstract page identity (the pointer value); `level` is the raw `uint16_t`
(so `clear()`'s poison value is `65535`). -/
structure Page where
  recEndOff : Nat
  stubs : List Stub
  level : Nat
  parent : Option Nat
  totalDataSize : Nat
deriving DecidableEq, Repr

namespace Page

/-- `numStub()`. -/
def numStub (p : Page) : Nat := p.stubs.length

/-- `stubBgnOff` (derived, see `Page`). -/
def stubBgnOff (p : Page) : Nat := PAGE_SIZE - STUB_SIZE * p.numStub

/-- `empty()`: `stubBgnOff() == PAGE_SIZE`. -/
def isEmpty (p : Page) : Bool := p.numStub = 0

/-- `freeSpace()`: `stubBgnOff() - recEndOff()`. -/
def freeSpace (p : Page) : Nat := p.stubBgnOff - p.recEndOff

/-- `emptySize()`: `PAGE_SIZE - headerEndOff()`. -/
def emptySize : Nat := PAGE_SIZE - HEADER_SIZE

/-- `canInsert(size)`: `size + sizeof(struct stub) <= freeSpace()`. -/
def canInsert (p : Page) (size : Nat) : Bool :=
  size + STUB_SIZE ≤ p.freeSpace

/-- `calcTotalDataSize()`: `Σ (keySize + valueSize + stubSize)`. -/
def calcTotalDataSize (p : Page) : Nat :=
  (p.stubs.map (fun s => s.key.length + s.value.length + STUB_SIZE)).sum

/-- `shouldGc()`: `totalDataSize() * 2 < emptySize()`. -/
def shouldGc (p : Page) : Bool := p.totalDataSize * 2 < emptySize

/-- Key bytes of stub `i` (`keyPtr(i)`/`keySize(i)`). -/
def keyAt (p : Page) (i : Nat) : List Nat := (p.stubs.getD i dStub).key

/-- Value bytes of stub `i` (`valuePtr(i)`/`valueSize(i)`). -/
def valueAt (p : Page) (i : Nat) : List Nat := (p.stubs.getD i dStub).value

/-- The in-order traversal of the page: `(key, value)` pairs in stub
order. -/
def items (p : Page) : List (List Nat × List Nat) :=
  p.stubs.map (fun s => (s.key, s.value))

/-- Key sequence of the page in stub order. -/
def keys (p : Page) : List (List Nat) := p.stubs.map Stub.key

/-- `clear()`: empty record and stub regions, `parent := nullptr`,
`level := uint16_t(-1)` poison, `totalDataSize := 0`. -/
def clearPage (_p : Page) : Page :=
  { recEndOff := HEADER_SIZE, stubs := [], level := 65535,
    parent := none, totalDataSize := 0 }

/-- A freshly constructed `PageX()` (its constructor calls `init()`, which
calls `clear()`). -/
def freshPage : Page := clearPage ⟨0, [], 0, none, 0⟩

/-- `isLower(key)`: the key compares below the key of stub 0. -/
def isLower (cmp : List Nat → List Nat → Int) (p : Page) (k : List Nat) : Bool :=
  cmp k (p.keyAt 0) < 0

/-- `isUpper(key)`: the key of the last stub compares below the key. -/
def isUpper (cmp : List Nat → List Nat → Int) (p : Page) (k : List Nat) : Bool :=
  cmp (p.keyAt (p.numStub - 1)) k < 0

/-- The binary-search loop of `lowerBoundStub` on the key sequence `ks`:
`while (i0 + 1 < i1) { i = (i0+i1)/2; ... }` followed by the final
two-way choice between `i0` and `i1`.  The interval shrinks strictly
every iteration, so an iteration budget of `i1 - i0` always suffices;
making the budget an explicit structural argument keeps the function
kernel-computable. -/
def lbLoop (cmp : List Nat → List Nat → Int) (ks : List (List Nat))
    (k : List Nat) : Nat → Nat → Nat → Nat
  | fuel + 1, i0, i1 =>
    if i0 + 1 < i1 then
      if cmp k (ks.getD ((i0 + i1) / 2) []) = 0 then (i0 + i1) / 2
      else if cmp k (ks.getD ((i0 + i1) / 2) []) < 0 then
        lbLoop cmp ks k fuel i0 ((i0 + i1) / 2)
      else lbLoop cmp ks k fuel ((i0 + i1) / 2) i1
    else if cmp (ks.getD i0 []) k < 0 then i1 else i0
  | 0, i0, i1 => if cmp (ks.getD i0 []) k < 0 then i1 else i0

/-- `lowerBoundStub(keyBytes)`: `EMPTY` on an empty page, `UPPER` when the
last key is below the search key, `0` when the search key is below the
first key, else the binary-search loop. -/
def lowerBoundStub (cmp : List Nat → List Nat → Int) (p : Page) (k : List Nat) : Nat :=
  if p.isEmpty then EMPTY
  else if p.isUpper cmp k then UPPER
  else if p.isLower cmp k then 0
  else lbLoop cmp p.keys k (p.numStub - 1) 0 (p.numStub - 1)

/-- The stub-directory effect of `insert`'s insertion-sort loop: the new
stub slides past every stub whose key does not compare above the new key
and lands in front of the first one that does. -/
def insStubList (cmp : List Nat → List Nat → Int) : List Stub → Stub → List Stub
  | [], s => [s]
  | x :: xs, s => if cmp s.key x.key < 0 then s :: x :: xs else x :: insStubList cmp xs s

/-- `insert(keyBytes, valueBytes)`: key-existence check (via
`lowerBoundStub`), then free-space check, then record append at
`recEndOff` and sorted stub insertion. -/
def insert (cmp : List Nat → List Nat → Int) (p : Page) (k v : List Nat) :
    Page × Bool × Option BtreeError :=
  let i := lowerBoundStub cmp p k
  if isNormalIndex i ∧ cmp k (p.keyAt i) = 0 then
    (p, false, some BtreeError.KEY_EXISTS)
  else if ¬ p.canInsert (k.length + v.length) then
    (p, false, some BtreeError.NO_SPACE)
  else
    ({ recEndOff := p.recEndOff + k.length + v.length,
       stubs := insStubList cmp p.stubs ⟨p.recEndOff, k, v⟩,
       level := p.level,
       parent := p.parent,
       totalDataSize := p.totalDataSize + k.length + v.length + STUB_SIZE },
     true, none)

/-- `eraseStub(i)`: drop stub `i` (stubs `[0, i)` slide one slot towards
the end of the page), decrement `totalDataSize`; record bytes are kept. -/
def eraseStub (p : Page) (i : Nat) : Page :=
  { p with
    stubs := p.stubs.eraseIdx i,
    totalDataSize :=
      p.totalDataSize - ((p.keyAt i).length + (p.valueAt i).length + STUB_SIZE) }

/-- `erase(keyBytes)`: erase whatever slot `lowerBoundStub` returns, if it
is a normal index.  (The source performs no key-equality check here.) -/
def erase (cmp : List Nat → List Nat → Int) (p : Page) (k : List Nat) :
    Page × Bool :=
  let idx := lowerBoundStub cmp p k
  if isNormalIndex idx then (p.eraseStub idx, true) else (p, false)

/-- `updateStub(i, valueBytes)`: in-place value overwrite; fails `NO_SPACE`
when the new value is larger than the stored one. -/
def updateStub (p : Page) (i : Nat) (v : List Nat) :
    Page × Bool × Option BtreeError :=
  let oldValueSize := (p.valueAt i).length
  if oldValueSize < v.length then
    (p, false, some BtreeError.NO_SPACE)
  else
    ({ p with
       stubs := p.stubs.set i { p.stubs.getD i dStub with value := v },
       totalDataSize := p.totalDataSize - (oldValueSize - v.length) },
     true, none)

/-- `update(keyBytes, valueBytes)`: fails `KEY_NOT_EXISTS` unless
`lowerBoundStub` lands on an equal key, else defers to `updateStub`. -/
def update (cmp : List Nat → List Nat → Int) (p : Page) (k v : List Nat) :
    Page × Bool × Option BtreeError :=
  let i := lowerBoundStub cmp p k
  if ¬ isNormalIndex i ∨ cmp k (p.keyAt i) ≠ 0 then
    (p, false, some BtreeError.KEY_NOT_EXISTS)
  else
    updateStub p i v

/-- `updateKeyStub(i, keyBytes)`: fails `NO_SPACE` when the new key is
larger than the old, `INVALID_KEY` when strict ordering with slot `i-1` or
`i+1` would break; otherwise rewrites the key in place. -/
def updateKeyStub (cmp : List Nat → List Nat → Int) (p : Page) (i : Nat)
    (k : List Nat) : Page × Bool × Option BtreeError :=
  let oldKeySize := (p.keyAt i).length
  if oldKeySize < k.length then
    (p, false, some BtreeError.NO_SPACE)
  else if 0 < i ∧ 0 ≤ cmp (p.keyAt (i - 1)) k then
    (p, false, some BtreeError.INVALID_KEY)
  else if i < p.numStub - 1 ∧ 0 ≤ cmp k (p.keyAt (i + 1)) then
    (p, false, some BtreeError.INVALID_KEY)
  else
    ({ p with
       stubs := p.stubs.set i { p.stubs.getD i dStub with key := k },
       totalDataSize := p.totalDataSize - (oldKeySize - k.length) },
     true, none)

/-- Folding `insert` over a batch of records, keeping only the page (the
source asserts every such internal insert succeeds). -/
def insertAll (cmp : List Nat → List Nat → Int) (p : Page) (l : List Stub) : Page :=
  l.foldl (fun q st => (insert cmp q st.key st.value).1) p

/-- `gc()`: reinsert all live records in stub order into a fresh page,
copy `parent` and `level`, swap buffers. -/
def gc (cmp : List Nat → List Nat → Int) (p : Page) : Page :=
  let q := insertAll cmp freshPage p.stubs
  { q with parent := p.parent, level := p.level }

/-- `split()` in half-and-half mode: two fresh pages at the source's
level; stubs `[n/2, n)` are inserted into `p1` in reverse order, stubs
`[0, n/2)` into `p0` in reverse order; the source is cleared.  Returns
`(cleared source, p0, p1)`. -/
def split (cmp : List Nat → List Nat → Int) (p : Page) : Page × Page × Page :=
  let n := p.numStub
  let p1 := insertAll cmp { freshPage with level := p.level } (p.stubs.drop (n / 2)).reverse
  let p0 := insertAll cmp { freshPage with level := p.level } (p.stubs.take (n / 2)).reverse
  (p.clearPage, p0, p1)

/-- `merge(rhs)`: `self` is the right page, `rhs` the left.  Fails when
`freeSpace() < rhs.totalDataSize()`; on success inserts all of `rhs`'s
records in reverse order and clears `rhs`.  Returns
`(self', rhs', success)`. -/
def merge (cmp : List Nat → List Nat → Int) (p rhs : Page) :
    Page × Page × Bool :=
  if p.freeSpace < rhs.totalDataSize then
    (p, rhs, false)
  else
    (insertAll cmp p rhs.stubs.reverse, rhs.clearPage, true)

/-- `minKey()`: key of stub 0 (the source asserts the page is non-empty;
on an empty page this is the junk read the source would perform). -/
def minKeyD (p : Page) : List Nat := p.keyAt 0

end Page

/-- The laws of a three-way byte-string comparison: reflexivity, the
antisymmetry of the sign, transitivity of the strict order, and
substitutivity of comparison-equality. -/
structure CmpLaws (cmp : List Nat → List Nat → Int) : Prop where
  refl : ∀ a, cmp a a = 0
  asymm : ∀ a b, cmp a b < 0 ↔ 0 < cmp b a
  lt_trans : ∀ a b c, cmp a b < 0 → cmp b c < 0 → cmp a c < 0
  eq_congr_left : ∀ a b c, cmp a b = 0 → cmp a c = cmp b c
  eq_congr_right : ∀ a b c, cmp a b = 0 → cmp c a = cmp c b

/-- A concrete `CompareX`-style function: lexicographic comparison of byte
strings (the shorter string first on a shared prefix). -/
def cmpB : List Nat → List Nat → Int
  | [], [] => 0
  | [], _ :: _ => -1
  | _ :: _, [] => 1
  | a :: as, b :: bs => if a < b then -1 else if b < a then 1 else cmpB as bs

/-- The page invariants of §3 of the spec that the arithmetic of the
operations relies on: the record region starts after the header, record
and stub regions do not overlap, the live record bytes fit below
`recEndOff`, and `totalDataSize` is the cached `calcTotalDataSize`. -/
structure PageWf (p : Page) : Prop where
  recLo : HEADER_SIZE ≤ p.recEndOff
  recHi : p.recEndOff + STUB_SIZE * p.numStub ≤ PAGE_SIZE
  sumRec : (p.stubs.map (fun s => s.key.length + s.value.length)).sum ≤ p.recEndOff - HEADER_SIZE
  tds : p.totalDataSize = p.calcTotalDataSize

/-- Strictly ascending stub keys, exactly as the spec states it: for
`0 ≤ i < numStubs − 1`, the key at stub `i` is strictly less than the key
at stub `i + 1`. -/
def StrictAsc (cmp : List Nat → List Nat → Int) (p : Page) : Prop :=
  ∀ i, i + 1 < p.numStub → cmp (p.keyAt i) (p.keyAt (i + 1)) < 0

end Btree

namespace Btree

/-! ## Comparison-function lemmas -/

theorem cmpB_nil_nil : cmpB [] [] = 0 := rfl

theorem cmpB_eq_zero : ∀ {a b : List Nat}, cmpB a b = 0 → a = b
  | [], [], _ => rfl
  | [], _ :: _, h => by simp [cmpB] at h
  | _ :: _, [], h => by simp [cmpB] at h
  | x :: xs, y :: ys, h => by
    by_cases hxy : x < y
    · simp [cmpB, hxy] at h
    · by_cases hyx : y < x
      · simp [cmpB, hxy, hyx] at h
      · have hxyeq : x = y := Nat.le_antisymm (Nat.le_of_not_lt hyx) (Nat.le_of_not_lt hxy)
        have h' : cmpB xs ys = 0 := by simpa [cmpB, hxy, hyx] using h
        rw [hxyeq, cmpB_eq_zero h']

theorem cmpB_refl : ∀ a : List Nat, cmpB a a = 0
  | [] => rfl
  | _ :: xs => by simp [cmpB, cmpB_refl xs]

theorem cmpB_asymm : ∀ a b : List Nat, cmpB a b < 0 ↔ 0 < cmpB b a
  | [], [] => by simp [cmpB]
  | [], _ :: _ => by simp [cmpB]
  | _ :: _, [] => by simp [cmpB]
  | x :: xs, y :: ys => by
    by_cases hxy : x < y
    · have hyx : ¬ y < x := Nat.lt_asymm hxy
      simp [cmpB, hxy, hyx]
    · by_cases hyx : y < x
      · simp [cmpB, hxy, hyx]
      · simp [cmpB, hxy, hyx, cmpB_asymm xs ys]

theorem cmpB_lt_trans : ∀ a b c : List Nat, cmpB a b < 0 → cmpB b c < 0 → cmpB a c < 0
  | [], [], _, hab, _ => by simp [cmpB] at hab
  | [], _ :: _, [], _, hbc => by simp [cmpB] at hbc
  | [], _ :: _, _ :: _, _, _ => by simp [cmpB]
  | _ :: _, [], _, hab, _ => by simp [cmpB] at hab
  | _ :: _, _ :: _, [], _, hbc => by simp [cmpB] at hbc
  | x :: xs, y :: ys, z :: zs, hab, hbc => by
    by_cases hxy : x < y
    · have hxz : x < z := by
        by_cases hyz : y < z
        · exact Nat.lt_trans hxy hyz
        · by_cases hzy : z < y
          · simp [cmpB, hyz, hzy] at hbc
          · have : y = z := Nat.le_antisymm (Nat.le_of_not_lt hzy) (Nat.le_of_not_lt hyz)
            omega
      simp [cmpB, hxz]
    · by_cases hyx : y < x
      · simp [cmpB, hxy, hyx] at hab
      · have hxyeq : x = y := Nat.le_antisymm (Nat.le_of_not_lt hyx) (Nat.le_of_not_lt hxy)
        have hab' : cmpB xs ys < 0 := by simpa [cmpB, hxy, hyx] using hab
        by_cases hyz : y < z
        · have hxz : x < z := hxyeq ▸ hyz
          simp [cmpB, hxz]
        · by_cases hzy : z < y
          · simp [cmpB, hyz, hzy] at hbc
          · have hyzeq : y = z := Nat.le_antisymm (Nat.le_of_not_lt hzy) (Nat.le_of_not_lt hyz)
            have hbc' : cmpB ys zs < 0 := by simpa [cmpB, hyz, hzy] using hbc
            have hxz : ¬ x < z := by omega
            have hzx : ¬ z < x := by omega
            simp [cmpB, hxz, hzx, cmpB_lt_trans xs ys zs hab' hbc']

/-- `cmpB` satisfies the three-way-comparison laws. -/
theorem cmpB_laws : CmpLaws cmpB where
  refl := cmpB_refl
  asymm := cmpB_asymm
  lt_trans := cmpB_lt_trans
  eq_congr_left := fun a b c h => by rw [cmpB_eq_zero h]
  eq_congr_right := fun a b c h => by rw [cmpB_eq_zero h]

section Laws

variable {cmp : List Nat → List Nat → Int}

theorem cmp_le_of_not_lt (L : CmpLaws cmp) {a b : List Nat}
    (h : ¬ cmp a b < 0) : cmp b a ≤ 0 := by
  by_contra hc
  exact h ((L.asymm a b).2 (lt_of_not_le hc))

theorem cmp_lt_of_le_of_lt (L : CmpLaws cmp) {a b c : List Nat}
    (h1 : cmp a b ≤ 0) (h2 : cmp b c < 0) : cmp a c < 0 := by
  rcases lt_or_eq_of_le h1 with h | h
  · exact L.lt_trans _ _ _ h h2
  · rw [L.eq_congr_left a b c h]; exact h2

theorem cmp_lt_of_lt_of_le (L : CmpLaws cmp) {a b c : List Nat}
    (h1 : cmp a b < 0) (h2 : cmp b c ≤ 0) : cmp a c < 0 := by
  rcases lt_or_eq_of_le h2 with h | h
  · exact L.lt_trans _ _ _ h1 h
  · rw [← L.eq_congr_right b c a h]; exact h1

theorem cmp_zero_symm (L : CmpLaws cmp) {a b : List Nat}
    (h : cmp a b = 0) : cmp b a = 0 := by
  have h1 := (L.asymm a b)
  have h2 := (L.asymm b a)
  omega

/-! ## Ascending key sequences -/

/-- The keys `ks` are pairwise strictly ascending under `cmp`. -/
def AscK (cmp : List Nat → List Nat → Int) (ks : List (List Nat)) : Prop :=
  List.Pairwise (fun a b => cmp a b < 0) ks

theorem ascK_getD {ks : List (List Nat)} (h : AscK cmp ks) {i j : Nat}
    (hij : i < j) (hj : j < ks.length) :
    cmp (ks.getD i []) (ks.getD j []) < 0 := by
  rw [List.getD_eq_getElem _ _ (lt_trans hij hj), List.getD_eq_getElem _ _ hj]
  exact List.pairwise_iff_getElem.1 h i j (lt_trans hij hj) hj hij

theorem keys_length (p : Page) : p.keys.length = p.numStub := by
  simp [Page.keys, Page.numStub]

theorem keyAt_eq_keys_getD (p : Page) (i : Nat) :
    p.keyAt i = p.keys.getD i [] := by
  by_cases h : i < p.stubs.length
  · rw [Page.keyAt, List.getD_eq_getElem _ _ h,
      List.getD_eq_getElem _ _ (by simpa [Page.keys] using h)]
    simp [Page.keys]
  · rw [Page.keyAt, List.getD_eq_default _ _ (le_of_not_lt h),
      List.getD_eq_default _ _ (by simpa [Page.keys] using le_of_not_lt h)]
    rfl

theorem strictAsc_of_ascK {p : Page} (h : AscK cmp p.keys) : StrictAsc cmp p := by
  intro i hi
  rw [keyAt_eq_keys_getD, keyAt_eq_keys_getD]
  exact ascK_getD h (Nat.lt_succ_self i) (by rwa [keys_length])

theorem ascK_of_strictAsc (L : CmpLaws cmp) {p : Page} (h : StrictAsc cmp p) :
    AscK cmp p.keys := by
  have step : ∀ d i0, i0 + d + 1 < p.keys.length →
      cmp (p.keys.getD i0 []) (p.keys.getD (i0 + d + 1) []) < 0 := by
    intro d
    induction d with
    | zero =>
      intro i0 hi0
      have := h i0 (by rwa [keys_length] at hi0)
      rwa [keyAt_eq_keys_getD, keyAt_eq_keys_getD] at this
    | succ d ih =>
      intro i0 hi0
      have h1 := ih i0 (by omega)
      have h2 := h (i0 + d + 1) (by rw [keys_length] at hi0; omega)
      rw [keyAt_eq_keys_getD, keyAt_eq_keys_getD] at h2
      have := L.lt_trans _ _ _ h1 h2
      have harith : i0 + d + 1 + 1 = i0 + (d + 1) + 1 := by omega
      rwa [harith] at this
  rw [AscK, List.pairwise_iff_getElem]
  intro i j hi hj hij
  have hd : i + (j - i - 1) + 1 = j := by omega
  have := step (j - i - 1) i (by omega)
  rw [hd, List.getD_eq_getElem p.keys [] hi, List.getD_eq_getElem p.keys [] hj] at this
  exact this

end Laws

end Btree

namespace Btree

section LowerBound

open Page

variable {cmp : List Nat → List Nat → Int}

theorem isEmpty_iff (p : Page) : p.isEmpty = true ↔ p.numStub = 0 := by
  simp [Page.isEmpty]

theorem isUpper_iff (p : Page) (k : List Nat) :
    p.isUpper cmp k = true ↔ cmp (p.keyAt (p.numStub - 1)) k < 0 := by
  simp [Page.isUpper]

theorem isLower_iff (p : Page) (k : List Nat) :
    p.isLower cmp k = true ↔ cmp k (p.keyAt 0) < 0 := by
  simp [Page.isLower]

theorem lbLoop_base (L : CmpLaws cmp) {ks : List (List Nat)} {k : List Nat}
    {i0 i1 : Nat} (hcond : i1 ≤ i0 + 1) (h01 : i0 ≤ i1)
    (hlow : 0 ≤ cmp k (ks.getD i0 [])) (hhigh : cmp k (ks.getD i1 []) ≤ 0) :
    i0 ≤ (if cmp (ks.getD i0 []) k < 0 then i1 else i0) ∧
    (if cmp (ks.getD i0 []) k < 0 then i1 else i0) ≤ i1 ∧
    cmp k (ks.getD (if cmp (ks.getD i0 []) k < 0 then i1 else i0) []) ≤ 0 ∧
    (∀ j, i0 ≤ j → j < (if cmp (ks.getD i0 []) k < 0 then i1 else i0) →
      0 < cmp k (ks.getD j [])) := by
  by_cases hc : cmp (ks.getD i0 []) k < 0
  · rw [if_pos hc]
    refine ⟨h01, le_refl _, hhigh, ?_⟩
    intro j hj0 hj1
    have hji : j = i0 := by omega
    subst hji
    exact (L.asymm _ _).1 hc
  · rw [if_neg hc]
    refine ⟨le_refl _, h01, cmp_le_of_not_lt L hc, ?_⟩
    intro j hj0 hj1
    omega

theorem lbLoop_spec (L : CmpLaws cmp) {ks : List (List Nat)}
    (hasc : AscK cmp ks) (k : List Nat) :
    ∀ m i0 i1, i1 - i0 ≤ m → i0 ≤ i1 → i1 < ks.length →
      0 ≤ cmp k (ks.getD i0 []) → cmp k (ks.getD i1 []) ≤ 0 →
      i0 ≤ lbLoop cmp ks k m i0 i1 ∧ lbLoop cmp ks k m i0 i1 ≤ i1 ∧
      cmp k (ks.getD (lbLoop cmp ks k m i0 i1) []) ≤ 0 ∧
      (∀ j, i0 ≤ j → j < lbLoop cmp ks k m i0 i1 → 0 < cmp k (ks.getD j [])) := by
  intro m
  induction m with
  | zero =>
    intro i0 i1 hm h01 h1 hlow hhigh
    simp only [lbLoop]
    exact lbLoop_base L (by omega) h01 hlow hhigh
  | succ m ih =>
    intro i0 i1 hm h01 h1 hlow hhigh
    by_cases hcond : i0 + 1 < i1
    · have hmidlo : i0 < (i0 + i1) / 2 := by omega
      have hmidhi : (i0 + i1) / 2 < i1 := by omega
      have hmidlen : (i0 + i1) / 2 < ks.length := lt_trans hmidhi h1
      simp only [lbLoop]
      rw [if_pos hcond]
      by_cases hr0 : cmp k (ks.getD ((i0 + i1) / 2) []) = 0
      · rw [if_pos hr0]
        refine ⟨le_of_lt hmidlo, le_of_lt hmidhi, le_of_eq hr0, ?_⟩
        intro j hj0 hj1
        have hjm : cmp (ks.getD j []) (ks.getD ((i0 + i1) / 2) []) < 0 :=
          ascK_getD hasc hj1 hmidlen
        have := L.eq_congr_left k (ks.getD ((i0 + i1) / 2) []) (ks.getD j []) hr0
        rw [this]
        exact (L.asymm _ _).1 hjm
      · rw [if_neg hr0]
        by_cases hr1 : cmp k (ks.getD ((i0 + i1) / 2) []) < 0
        · rw [if_pos hr1]
          have hm2 : (i0 + i1) / 2 - i0 ≤ m := by omega
          obtain ⟨ha, hb, hc, hd⟩ := ih i0 ((i0 + i1) / 2) hm2 (le_of_lt hmidlo)
            hmidlen hlow (le_of_lt hr1)
          exact ⟨ha, le_trans hb (le_of_lt hmidhi), hc, hd⟩
        · rw [if_neg hr1]
          have hpos : 0 ≤ cmp k (ks.getD ((i0 + i1) / 2) []) := le_of_not_lt hr1
          have hm2 : i1 - (i0 + i1) / 2 ≤ m := by omega
          obtain ⟨ha, hb, hc, hd⟩ :=
            ih ((i0 + i1) / 2) i1 hm2 (le_of_lt hmidhi) h1 hpos hhigh
          refine ⟨le_trans (le_of_lt hmidlo) ha, hb, hc, ?_⟩
          intro j hj0 hj1
          by_cases hji : j < (i0 + i1) / 2
          · have hjm : cmp (ks.getD j []) (ks.getD ((i0 + i1) / 2) []) < 0 :=
              ascK_getD hasc hji hmidlen
            have hmk : cmp (ks.getD ((i0 + i1) / 2) []) k ≤ 0 :=
              cmp_le_of_not_lt L hr1
            have := cmp_lt_of_lt_of_le L hjm hmk
            exact (L.asymm _ _).1 this
          · exact hd j (le_of_not_lt hji) hj1
    · simp only [lbLoop]
      rw [if_neg hcond]
      exact lbLoop_base L (by omega) h01 hlow hhigh

/-- `lowerBoundStub` on an empty page returns `EMPTY`. -/
theorem lowerBoundStub_empty {p : Page} (k : List Nat) (h : p.numStub = 0) :
    lowerBoundStub cmp p k = EMPTY := by
  simp [lowerBoundStub, Page.isEmpty, h]

/-- `lowerBoundStub` returns `UPPER` when the last key is below the search
key. -/
theorem lowerBoundStub_upper {p : Page} {k : List Nat} (h0 : p.numStub ≠ 0)
    (h : cmp (p.keyAt (p.numStub - 1)) k < 0) :
    lowerBoundStub cmp p k = UPPER := by
  simp [lowerBoundStub, Page.isEmpty, h0, Page.isUpper, h]

/-- On a strictly ascending non-empty page whose last key is not below the
search key, `lowerBoundStub` returns the smallest slot whose key is not
below the search key. -/
theorem lowerBoundStub_found (L : CmpLaws cmp) {p : Page}
    (hasc : StrictAsc cmp p) {k : List Nat} (h0 : p.numStub ≠ 0)
    (hu : ¬ cmp (p.keyAt (p.numStub - 1)) k < 0) :
    lowerBoundStub cmp p k < p.numStub ∧
    cmp k (p.keyAt (lowerBoundStub cmp p k)) ≤ 0 ∧
    (∀ j, j < lowerBoundStub cmp p k → 0 < cmp k (p.keyAt j)) := by
  have hne : ¬ p.isEmpty = true := by simp [Page.isEmpty, h0]
  have hnu : ¬ p.isUpper cmp k = true := by simpa [Page.isUpper] using hu
  by_cases hl : p.isLower cmp k = true
  · rw [lowerBoundStub, if_neg hne, if_neg hnu, if_pos hl]
    have hl' : cmp k (p.keyAt 0) < 0 := by simpa [Page.isLower] using hl
    exact ⟨by omega, le_of_lt hl', by intro j hj; omega⟩
  · rw [lowerBoundStub, if_neg hne, if_neg hnu, if_neg hl]
    have hlow : 0 ≤ cmp k (p.keys.getD 0 []) := by
      rw [← keyAt_eq_keys_getD]
      have := (not_iff_not.2 (@isLower_iff cmp p k)).1 hl
      omega
    have hhigh : cmp k (p.keys.getD (p.numStub - 1) []) ≤ 0 := by
      rw [← keyAt_eq_keys_getD]
      exact cmp_le_of_not_lt L hu
    obtain ⟨ha, hb, hc, hd⟩ := lbLoop_spec L (ascK_of_strictAsc L hasc) k
      (p.numStub - 1) 0 (p.numStub - 1) (by omega) (by omega)
      (by rw [keys_length]; omega) hlow hhigh
    refine ⟨by omega, ?_, ?_⟩
    · rw [keyAt_eq_keys_getD]; exact hc
    · intro j hj
      rw [keyAt_eq_keys_getD]
      exact hd j (by omega) hj

end LowerBound

end Btree

namespace Btree

section Membership

open Page

variable {cmp : List Nat → List Nat → Int}

theorem isNormalIndex_of_lt {i n : Nat} (h : i < n) (hn : n ≤ UPPER) :
    isNormalIndex i = true := by
  simp only [isNormalIndex, EMPTY, LOWER, UPPER] at *
  simp only [Bool.and_eq_true, decide_eq_true_eq, ne_eq]
  omega

theorem isNormalIndex_EMPTY : isNormalIndex EMPTY = false := rfl

theorem isNormalIndex_UPPER : isNormalIndex UPPER = false := rfl

/-- The joint test `isNormalIndex(lowerBoundStub(key)) && key equal` that
`insert` and `update` perform detects exactly the presence of a stub whose
key compares equal, on a strictly ascending page of sane stub count. -/
theorem found_iff (L : CmpLaws cmp) {p : Page} (hasc : StrictAsc cmp p)
    (hn : p.numStub ≤ UPPER) (k : List Nat) :
    (isNormalIndex (lowerBoundStub cmp p k) = true ∧
      cmp k (p.keyAt (lowerBoundStub cmp p k)) = 0) ↔
    (∃ j, j < p.numStub ∧ cmp k (p.keyAt j) = 0) := by
  constructor
  · rintro ⟨hnorm, heq⟩
    by_cases h0 : p.numStub = 0
    · rw [lowerBoundStub_empty k h0, isNormalIndex_EMPTY] at hnorm
      exact absurd hnorm (by simp)
    · by_cases hu : cmp (p.keyAt (p.numStub - 1)) k < 0
      · rw [lowerBoundStub_upper h0 hu, isNormalIndex_UPPER] at hnorm
        exact absurd hnorm (by simp)
      · obtain ⟨ha, _, _⟩ := lowerBoundStub_found L hasc h0 hu
        exact ⟨lowerBoundStub cmp p k, ha, heq⟩
  · rintro ⟨j, hj, hjeq⟩
    have h0 : p.numStub ≠ 0 := by omega
    have hu : ¬ cmp (p.keyAt (p.numStub - 1)) k < 0 := by
      intro hupper
      by_cases hjn : j = p.numStub - 1
      · subst hjn
        have := cmp_zero_symm L hjeq
        omega
      · have hjlt : cmp (p.keyAt j) (p.keyAt (p.numStub - 1)) < 0 := by
          rw [keyAt_eq_keys_getD, keyAt_eq_keys_getD]
          exact ascK_getD (ascK_of_strictAsc L hasc) (by omega)
            (by rw [keys_length]; omega)
        have hklast : cmp k (p.keyAt (p.numStub - 1)) < 0 := by
          rw [L.eq_congr_left k (p.keyAt j) (p.keyAt (p.numStub - 1)) hjeq]
          exact hjlt
        have := (L.asymm (p.keyAt (p.numStub - 1)) k).1 hupper
        omega
    obtain ⟨ha, hb, hc⟩ := lowerBoundStub_found L hasc h0 hu
    have hlbj : lowerBoundStub cmp p k = j := by
      by_cases hlt : lowerBoundStub cmp p k < j
      · exfalso
        have hlj : cmp (p.keyAt (lowerBoundStub cmp p k)) (p.keyAt j) < 0 := by
          rw [keyAt_eq_keys_getD, keyAt_eq_keys_getD]
          exact ascK_getD (ascK_of_strictAsc L hasc) hlt (by rw [keys_length]; omega)
        have : cmp (p.keyAt (lowerBoundStub cmp p k)) k < 0 := by
          rw [L.eq_congr_right k (p.keyAt j) (p.keyAt (lowerBoundStub cmp p k)) hjeq]
          exact hlj
        have := (L.asymm (p.keyAt (lowerBoundStub cmp p k)) k).1 this
        omega
      · by_cases hgt : j < lowerBoundStub cmp p k
        · exfalso
          have := hc j hgt
          omega
        · omega
    rw [hlbj]
    exact ⟨isNormalIndex_of_lt (hlbj ▸ ha) hn, hjeq⟩

/-- Negated form of `found_iff`: the key-existence test fails exactly when
no stub key compares equal. -/
theorem not_found_iff (L : CmpLaws cmp) {p : Page} (hasc : StrictAsc cmp p)
    (hn : p.numStub ≤ UPPER) (k : List Nat) :
    ¬ (isNormalIndex (lowerBoundStub cmp p k) = true ∧
        cmp k (p.keyAt (lowerBoundStub cmp p k)) = 0) ↔
    (∀ j, j < p.numStub → cmp k (p.keyAt j) ≠ 0) := by
  rw [found_iff L hasc hn k]
  push_neg
  rfl

end Membership

end Btree

namespace Btree

section InsertLemmas

open Page

variable {cmp : List Nat → List Nat → Int}

/-- `insert` when the key-existence test holds. -/
theorem insert_found (p : Page) (k v : List Nat)
    (h : isNormalIndex (lowerBoundStub cmp p k) = true ∧
      cmp k (p.keyAt (lowerBoundStub cmp p k)) = 0) :
    insert cmp p k v = (p, false, some BtreeError.KEY_EXISTS) := by
  unfold Page.insert
  rw [if_pos h]

/-- `insert` when the key is not found and the record does not fit. -/
theorem insert_nospace (p : Page) (k v : List Nat)
    (h1 : ¬ (isNormalIndex (lowerBoundStub cmp p k) = true ∧
      cmp k (p.keyAt (lowerBoundStub cmp p k)) = 0))
    (h2 : ¬ p.canInsert (k.length + v.length) = true) :
    insert cmp p k v = (p, false, some BtreeError.NO_SPACE) := by
  unfold Page.insert
  rw [if_neg h1, if_pos h2]

/-- `insert` when the key is not found and the record fits. -/
theorem insert_ok (p : Page) (k v : List Nat)
    (h1 : ¬ (isNormalIndex (lowerBoundStub cmp p k) = true ∧
      cmp k (p.keyAt (lowerBoundStub cmp p k)) = 0))
    (h2 : p.canInsert (k.length + v.length) = true) :
    insert cmp p k v =
      ({ recEndOff := p.recEndOff + k.length + v.length,
         stubs := insStubList cmp p.stubs ⟨p.recEndOff, k, v⟩,
         level := p.level,
         parent := p.parent,
         totalDataSize := p.totalDataSize + k.length + v.length + STUB_SIZE },
       true, none) := by
  unfold Page.insert
  rw [if_neg h1, if_neg (by simpa using h2)]

/-- A failing `insert` returns the page unchanged. -/
theorem insert_false_unchanged (p : Page) (k v : List Nat)
    (h : (insert cmp p k v).2.1 = false) : (insert cmp p k v).1 = p := by
  by_cases h1 : (isNormalIndex (lowerBoundStub cmp p k) = true ∧
      cmp k (p.keyAt (lowerBoundStub cmp p k)) = 0)
  · rw [insert_found p k v h1]
  · by_cases h2 : p.canInsert (k.length + v.length) = true
    · rw [insert_ok p k v h1 h2] at h
      simp at h
    · rw [insert_nospace p k v h1 h2]

theorem insStubList_perm (cmp : List Nat → List Nat → Int) (l : List Stub)
    (s : Stub) : List.Perm (insStubList cmp l s) (s :: l) := by
  induction l with
  | nil => exact List.Perm.refl _
  | cons x xs ih =>
    by_cases h : cmp s.key x.key < 0
    · simp [insStubList, h]
    · simp only [insStubList, if_neg h]
      exact (ih.cons x).trans (List.Perm.swap s x xs)

theorem insStubList_pairwise (L : CmpLaws cmp) {l : List Stub} {s : Stub}
    (hasc : List.Pairwise (fun a b : Stub => cmp a.key b.key < 0) l)
    (hne : ∀ x ∈ l, cmp s.key x.key ≠ 0) :
    List.Pairwise (fun a b : Stub => cmp a.key b.key < 0) (insStubList cmp l s) := by
  induction l with
  | nil => simp [insStubList]
  | cons x xs ih =>
    rcases List.pairwise_cons.1 hasc with ⟨hx, hxs⟩
    by_cases h : cmp s.key x.key < 0
    · simp only [insStubList, if_pos h]
      refine List.pairwise_cons.2 ⟨?_, hasc⟩
      intro y hy
      rcases List.mem_cons.1 hy with hy | hy
      · rw [hy]; exact h
      · exact L.lt_trans _ _ _ h (hx y hy)
    · simp only [insStubList, if_neg h]
      refine List.pairwise_cons.2
        ⟨?_, ih hxs (fun y hy => hne y (List.mem_cons_of_mem _ hy))⟩
      intro y hy
      have hy' : y ∈ s :: xs := (insStubList_perm cmp xs s).mem_iff.1 hy
      rcases List.mem_cons.1 hy' with hy2 | hy2
      · rw [hy2]
        have hne0 : cmp s.key x.key ≠ 0 := hne x (List.mem_cons_self x xs)
        have hpos : 0 < cmp s.key x.key := by omega
        exact (L.asymm x.key s.key).2 hpos
      · exact hx y hy2

theorem ascStubs_iff_ascK (p : Page) :
    List.Pairwise (fun a b : Stub => cmp a.key b.key < 0) p.stubs ↔
      AscK cmp p.keys := by
  rw [AscK, Page.keys, List.pairwise_map]

/-- A stub-membership version of `not_found_iff`. -/
theorem not_found_mem (L : CmpLaws cmp) {p : Page} (hasc : StrictAsc cmp p)
    (hn : p.numStub ≤ UPPER) (k : List Nat)
    (h1 : ¬ (isNormalIndex (lowerBoundStub cmp p k) = true ∧
      cmp k (p.keyAt (lowerBoundStub cmp p k)) = 0)) :
    ∀ x ∈ p.stubs, cmp k x.key ≠ 0 := by
  intro x hx
  obtain ⟨j, hj, hjx⟩ := List.mem_iff_getElem.1 hx
  have := (not_found_iff L hasc hn k).1 h1 j hj
  rwa [Page.keyAt, List.getD_eq_getElem p.stubs dStub hj, hjx] at this

/-- `insert` preserves strictly ascending stub keys. -/
theorem insert_asc (L : CmpLaws cmp) {p : Page} (hn : p.numStub ≤ UPPER)
    (hasc : StrictAsc cmp p) (k v : List Nat) :
    StrictAsc cmp (insert cmp p k v).1 := by
  by_cases h1 : (isNormalIndex (lowerBoundStub cmp p k) = true ∧
      cmp k (p.keyAt (lowerBoundStub cmp p k)) = 0)
  · rw [insert_found p k v h1]; exact hasc
  · by_cases h2 : p.canInsert (k.length + v.length) = true
    · rw [insert_ok p k v h1 h2]
      apply strictAsc_of_ascK
      rw [← ascStubs_iff_ascK]
      exact insStubList_pairwise L
        ((ascStubs_iff_ascK p).2 (ascK_of_strictAsc L hasc))
        (not_found_mem L hasc hn k h1)
    · rw [insert_nospace p k v h1 h2]; exact hasc

end InsertLemmas

end Btree

namespace Btree

/-- Total key+value byte count of a batch of records. -/
def sumKV (l : List Stub) : Nat :=
  (l.map (fun s => s.key.length + s.value.length)).sum

/-- Total data size (key + value + stub descriptor) of a batch of
records, as counted by `totalDataSize`. -/
def sumSize (l : List Stub) : Nat :=
  (l.map (fun s => s.key.length + s.value.length + STUB_SIZE)).sum

theorem sumKV_cons (s : Stub) (l : List Stub) :
    sumKV (s :: l) = s.key.length + s.value.length + sumKV l := by
  simp [sumKV]

theorem sumSize_cons (s : Stub) (l : List Stub) :
    sumSize (s :: l) = s.key.length + s.value.length + STUB_SIZE + sumSize l := by
  simp [sumSize]

section InsertAll

open Page

variable {cmp : List Nat → List Nat → Int}

theorem freeSpace_eq (p : Page) :
    p.freeSpace = 1024 - 6 * p.numStub - p.recEndOff := rfl

/-- The key-existence test fails when no stub key compares equal. -/
theorem not_found_test (L : CmpLaws cmp) {p : Page} (hasc : StrictAsc cmp p)
    (hn : p.numStub ≤ UPPER) {k : List Nat}
    (hne : ∀ x ∈ p.stubs, cmp k x.key ≠ 0) :
    ¬ (isNormalIndex (lowerBoundStub cmp p k) = true ∧
      cmp k (p.keyAt (lowerBoundStub cmp p k)) = 0) := by
  rw [not_found_iff L hasc hn k]
  intro j hj
  have hmem : p.stubs.getD j dStub ∈ p.stubs := by
    rw [List.getD_eq_getElem p.stubs dStub hj]
    exact List.getElem_mem hj
  exact hne _ hmem

/-- Effect of folding `insert` over a batch of pairwise-distinct records
that are key-disjoint from the page and fit in its free space: every
insert succeeds, the items end up being exactly the old items plus the
batch (as a multiset), the result is strictly ascending, and the header
fields evolve as the source's arithmetic says. -/
theorem insertAll_spec (L : CmpLaws cmp) :
    ∀ (l : List Stub) (p : Page),
      p.numStub + l.length ≤ UPPER →
      StrictAsc cmp p →
      (∀ s ∈ l, ∀ x ∈ p.stubs, cmp s.key x.key ≠ 0) →
      List.Pairwise (fun a b : Stub => cmp a.key b.key ≠ 0) l →
      sumSize l ≤ p.freeSpace →
      List.Perm (insertAll cmp p l).items
          (p.items ++ l.map (fun s => (s.key, s.value))) ∧
      StrictAsc cmp (insertAll cmp p l) ∧
      (insertAll cmp p l).level = p.level ∧
      (insertAll cmp p l).parent = p.parent ∧
      (insertAll cmp p l).recEndOff = p.recEndOff + sumKV l ∧
      (insertAll cmp p l).totalDataSize = p.totalDataSize + sumSize l ∧
      (insertAll cmp p l).numStub = p.numStub + l.length := by
  intro l
  induction l with
  | nil =>
    intro p _ hasc _ _ _
    refine ⟨?_, hasc, rfl, rfl, ?_, ?_, ?_⟩ <;>
      simp [insertAll, sumKV, sumSize]
  | cons s l ih =>
    intro p hn hasc hdisj hpair hspace
    have hn0 : p.numStub ≤ UPPER := by omega
    have hne : ∀ x ∈ p.stubs, cmp s.key x.key ≠ 0 :=
      fun x hx => hdisj s (List.mem_cons_self s l) x hx
    have h1 := not_found_test L hasc hn0 hne
    have hs : s.key.length + s.value.length + STUB_SIZE + sumSize l ≤ p.freeSpace := by
      rw [← sumSize_cons]; exact hspace
    have h2 : p.canInsert (s.key.length + s.value.length) = true := by
      simp only [Page.canInsert, decide_eq_true_eq]
      omega
    have hstep : insertAll cmp p (s :: l) =
        insertAll cmp (insert cmp p s.key s.value).1 l := rfl
    set p' := (insert cmp p s.key s.value).1 with hp'
    have hins := insert_ok p s.key s.value h1 h2
    have hps : p'.stubs = insStubList cmp p.stubs ⟨p.recEndOff, s.key, s.value⟩ := by
      rw [hp', hins]
    have hperm' : List.Perm p'.stubs (⟨p.recEndOff, s.key, s.value⟩ :: p.stubs) := by
      rw [hps]; exact insStubList_perm cmp p.stubs _
    have hlen' : p'.numStub = p.numStub + 1 := by
      rw [Page.numStub, hperm'.length_eq]; rfl
    have hrec' : p'.recEndOff = p.recEndOff + (s.key.length + s.value.length) := by
      rw [hp', hins]; simp; omega
    have htds' : p'.totalDataSize =
        p.totalDataSize + (s.key.length + s.value.length + STUB_SIZE) := by
      rw [hp', hins]; simp; omega
    have hlvl' : p'.level = p.level := by rw [hp', hins]
    have hpar' : p'.parent = p.parent := by rw [hp', hins]
    have hasc' : StrictAsc cmp p' := insert_asc L hn0 hasc s.key s.value
    have hfs' : sumSize l ≤ p'.freeSpace := by
      rw [freeSpace_eq, hlen', hrec']
      rw [freeSpace_eq] at hs
      simp only [STUB_SIZE] at hs
      omega
    have hdisj' : ∀ t ∈ l, ∀ x ∈ p'.stubs, cmp t.key x.key ≠ 0 := by
      intro t ht x hx
      have hx' : x ∈ (⟨p.recEndOff, s.key, s.value⟩ : Stub) :: p.stubs :=
        hperm'.mem_iff.1 hx
      rcases List.mem_cons.1 hx' with hx2 | hx2
      · rw [hx2]
        intro hc
        have hst : cmp s.key t.key ≠ 0 :=
          (List.pairwise_cons.1 hpair).1 t ht
        exact hst (cmp_zero_symm L hc)
      · exact hdisj t (List.mem_cons_of_mem s ht) x hx2
    have hn' : p'.numStub + l.length ≤ UPPER := by
      rw [hlen']
      simp only [List.length_cons] at hn
      omega
    obtain ⟨ihperm, ihasc, ihlvl, ihpar, ihrec, ihtds, ihnum⟩ :=
      ih p' hn' hasc' hdisj' (List.pairwise_cons.1 hpair).2 hfs'
    rw [hstep]
    refine ⟨?_, ihasc, by rw [ihlvl, hlvl'], by rw [ihpar, hpar'], ?_, ?_, ?_⟩
    · have hitems' : List.Perm p'.items ((s.key, s.value) :: p.items) := by
        rw [Page.items, Page.items]
        exact hperm'.map _
      refine ihperm.trans ?_
      refine (hitems'.append_right _).trans ?_
      simp only [List.map_cons, List.cons_append]
      exact (List.perm_middle).symm
    · rw [ihrec, hrec', sumKV_cons]; omega
    · rw [ihtds, htds', sumSize_cons]; omega
    · rw [ihnum, hlen']; simp [List.length_cons]; omega

end InsertAll

end Btree

namespace Btree

section OpLemmas

open Page

variable {cmp : List Nat → List Nat → Int}

/-- `lowerBoundStub` lands exactly on a stub whose key compares equal,
when one exists. -/
theorem lb_eq_of_eq (L : CmpLaws cmp) {p : Page} (hasc : StrictAsc cmp p)
    {k : List Nat} {j : Nat} (hj : j < p.numStub)
    (heq : cmp k (p.keyAt j) = 0) : lowerBoundStub cmp p k = j := by
  have h0 : p.numStub ≠ 0 := by omega
  have hu : ¬ cmp (p.keyAt (p.numStub - 1)) k < 0 := by
    intro hupper
    by_cases hjn : j = p.numStub - 1
    · subst hjn
      have := cmp_zero_symm L heq
      omega
    · have hjlt : cmp (p.keyAt j) (p.keyAt (p.numStub - 1)) < 0 := by
        rw [keyAt_eq_keys_getD, keyAt_eq_keys_getD]
        exact ascK_getD (ascK_of_strictAsc L hasc) (by omega)
          (by rw [keys_length]; omega)
      have hklast : cmp k (p.keyAt (p.numStub - 1)) < 0 := by
        rw [L.eq_congr_left k (p.keyAt j) (p.keyAt (p.numStub - 1)) heq]
        exact hjlt
      have := (L.asymm (p.keyAt (p.numStub - 1)) k).1 hupper
      omega
  obtain ⟨ha, hb, hc⟩ := lowerBoundStub_found L hasc h0 hu
  by_cases hlt : lowerBoundStub cmp p k < j
  · exfalso
    have hlj : cmp (p.keyAt (lowerBoundStub cmp p k)) (p.keyAt j) < 0 := by
      rw [keyAt_eq_keys_getD, keyAt_eq_keys_getD]
      exact ascK_getD (ascK_of_strictAsc L hasc) hlt (by rw [keys_length]; omega)
    have : cmp (p.keyAt (lowerBoundStub cmp p k)) k < 0 := by
      rw [L.eq_congr_right k (p.keyAt j) (p.keyAt (lowerBoundStub cmp p k)) heq]
      exact hlj
    have := (L.asymm (p.keyAt (lowerBoundStub cmp p k)) k).1 this
    omega
  · by_cases hgt : j < lowerBoundStub cmp p k
    · exfalso
      have := hc j hgt
      omega
    · omega

/-- `eraseStub` preserves strictly ascending keys. -/
theorem eraseStub_asc (L : CmpLaws cmp) {p : Page} (hasc : StrictAsc cmp p)
    (i : Nat) : StrictAsc cmp (p.eraseStub i) := by
  apply strictAsc_of_ascK
  rw [← ascStubs_iff_ascK]
  have hsub : List.Sublist (p.stubs.eraseIdx i) p.stubs := List.eraseIdx_sublist p.stubs i
  have := (@ascStubs_iff_ascK cmp p).2 (ascK_of_strictAsc L hasc)
  exact this.sublist hsub

/-- One `insert` grows the stub count by at most one. -/
theorem numStub_insert_le (p : Page) (k v : List Nat) :
    (insert cmp p k v).1.numStub ≤ p.numStub + 1 := by
  by_cases h1 : (isNormalIndex (lowerBoundStub cmp p k) = true ∧
      cmp k (p.keyAt (lowerBoundStub cmp p k)) = 0)
  · rw [insert_found p k v h1]
    show p.numStub ≤ p.numStub + 1
    omega
  · by_cases h2 : p.canInsert (k.length + v.length) = true
    · rw [insert_ok p k v h1 h2]
      show (insStubList cmp p.stubs ⟨p.recEndOff, k, v⟩).length ≤ p.stubs.length + 1
      rw [(insStubList_perm cmp p.stubs _).length_eq]
      simp
    · rw [insert_nospace p k v h1 h2]
      show p.numStub ≤ p.numStub + 1
      omega

/-- Folding `insert` preserves strictly ascending keys, with no
requirement that any insert succeed. -/
theorem insertAll_asc (L : CmpLaws cmp) :
    ∀ (l : List Stub) (p : Page), p.numStub + l.length ≤ UPPER →
      StrictAsc cmp p → StrictAsc cmp (insertAll cmp p l) := by
  intro l
  induction l with
  | nil => intro p _ hasc; exact hasc
  | cons s l ih =>
    intro p hn hasc
    have hstep : insertAll cmp p (s :: l) =
        insertAll cmp (insert cmp p s.key s.value).1 l := rfl
    rw [hstep]
    have hle := @numStub_insert_le cmp p s.key s.value
    refine ih _ ?_ (insert_asc L (by omega) hasc s.key s.value)
    simp only [List.length_cons] at hn
    omega

/-- Overwriting the value bytes of one stub does not change the key
sequence. -/
theorem keys_set_value (l : List Stub) (i : Nat) (v : List Nat) :
    (l.set i { l.getD i dStub with value := v }).map Stub.key = l.map Stub.key := by
  apply List.ext_getElem
  · simp
  · intro j h1 h2
    simp only [List.length_map, List.length_set] at h1 h2
    simp only [List.getElem_map, List.getElem_set]
    split
    · next heq =>
      subst heq
      rw [List.getD_eq_getElem l dStub h2]
    · rfl

/-- A page with the same key sequence as a strictly ascending page is
strictly ascending. -/
theorem strictAsc_of_keys_eq {p q : Page} (h : q.keys = p.keys)
    (hp : StrictAsc cmp p) : StrictAsc cmp q := by
  intro i hi
  have hlen : q.numStub = p.numStub := by
    rw [← keys_length, ← keys_length, h]
  rw [keyAt_eq_keys_getD, keyAt_eq_keys_getD, h, ← keyAt_eq_keys_getD,
    ← keyAt_eq_keys_getD]
  exact hp i (by omega)

/-- `update` (and its failure modes) preserve strictly ascending keys. -/
theorem update_asc (L : CmpLaws cmp) {p : Page} (hasc : StrictAsc cmp p)
    (k v : List Nat) : StrictAsc cmp (update cmp p k v).1 := by
  rw [Page.update]
  by_cases h1 : (¬ isNormalIndex (lowerBoundStub cmp p k) = true ∨
      cmp k (p.keyAt (lowerBoundStub cmp p k)) ≠ 0)
  · rw [if_pos h1]; exact hasc
  · rw [if_neg h1, Page.updateStub]
    by_cases h2 : (p.valueAt (lowerBoundStub cmp p k)).length < v.length
    · rw [if_pos h2]; exact hasc
    · rw [if_neg h2]
      exact strictAsc_of_keys_eq
        (keys_set_value p.stubs (lowerBoundStub cmp p k) v) hasc

end OpLemmas

end Btree

namespace Btree

section MoreLemmas

open Page

variable {cmp : List Nat → List Nat → Int}

theorem getD_set_list (l : List (List Nat)) (i j : Nat) (a : List Nat) :
    (l.set i a).getD j [] =
      if i = j ∧ j < l.length then a else l.getD j [] := by
  by_cases hj : j < l.length
  · rw [List.getD_eq_getElem (l.set i a) [] (by simpa using hj),
      List.getD_eq_getElem l [] hj]
    simp only [List.getElem_set]
    by_cases hij : i = j
    · simp [hij, hj]
    · simp [hij]
  · rw [List.getD_eq_default (l.set i a) [] (by simpa using le_of_not_lt hj),
      List.getD_eq_default l [] (le_of_not_lt hj)]
    simp [hj]

/-- Rewriting the key of one stub rewrites exactly that entry of the key
sequence. -/
theorem keys_set_key (l : List Stub) (i : Nat) (k : List Nat) :
    (l.set i { l.getD i dStub with key := k }).map Stub.key =
      (l.map Stub.key).set i k := List.map_set

/-- Rewriting the key at a valid slot to one that respects both
neighbours preserves strictly ascending keys. -/
theorem strictAsc_set_key (L : CmpLaws cmp) {p : Page} (hasc : StrictAsc cmp p)
    {i : Nat} (hi : i < p.numStub) {k : List Nat}
    (hleft : i = 0 ∨ cmp (p.keyAt (i - 1)) k < 0)
    (hright : p.numStub - 1 ≤ i ∨ cmp k (p.keyAt (i + 1)) < 0)
    {q : Page} (hq : q.keys = p.keys.set i k) : StrictAsc cmp q := by
  intro m hm
  have hkl : p.keys.length = p.numStub := keys_length p
  have hqlen : q.numStub = p.numStub := by
    rw [← keys_length, hq, List.length_set, hkl]
  rw [hqlen] at hm
  rw [keyAt_eq_keys_getD, keyAt_eq_keys_getD, hq, getD_set_list, getD_set_list]
  by_cases hmi : i = m
  · subst hmi
    rw [if_pos ⟨rfl, by omega⟩,
      if_neg (by omega : ¬ (i = i + 1 ∧ i + 1 < p.keys.length)),
      ← keyAt_eq_keys_getD]
    rcases hright with hr | hr
    · omega
    · exact hr
  · by_cases hmi1 : i = m + 1
    · subst hmi1
      rw [if_neg (by omega : ¬ (m + 1 = m ∧ m < p.keys.length)),
        if_pos ⟨rfl, by omega⟩, ← keyAt_eq_keys_getD]
      rcases hleft with hl | hl
      · omega
      · have hne : m + 1 - 1 = m := by omega
        rwa [hne] at hl
    · rw [if_neg (by omega : ¬ (i = m ∧ m < p.keys.length)),
        if_neg (by omega : ¬ (i = m + 1 ∧ m + 1 < p.keys.length)),
        ← keyAt_eq_keys_getD, ← keyAt_eq_keys_getD]
      exact hasc m hm

/-- `updateKeyStub` preserves strictly ascending keys (for a valid index,
as asserted by the source). -/
theorem updateKeyStub_asc (L : CmpLaws cmp) {p : Page} (hasc : StrictAsc cmp p)
    {i : Nat} (hi : i < p.numStub) (k : List Nat) :
    StrictAsc cmp (updateKeyStub cmp p i k).1 := by
  rw [Page.updateKeyStub]
  by_cases h1 : (p.keyAt i).length < k.length
  · rw [if_pos h1]; exact hasc
  · rw [if_neg h1]
    by_cases h2 : (0 < i ∧ 0 ≤ cmp (p.keyAt (i - 1)) k)
    · rw [if_pos h2]; exact hasc
    · rw [if_neg h2]
      by_cases h3 : (i < p.numStub - 1 ∧ 0 ≤ cmp k (p.keyAt (i + 1)))
      · rw [if_pos h3]; exact hasc
      · rw [if_neg h3]
        push_neg at h2 h3
        refine strictAsc_set_key L hasc hi ?_ ?_
          (keys_set_key p.stubs i k)
        · by_cases h0 : 0 < i
          · right
            have := h2 h0
            omega
          · left; omega
        · by_cases hlast : i < p.numStub - 1
          · right
            have := h3 hlast
            omega
          · left; omega

theorem sumSize_split (l : List Stub) :
    sumSize l = sumKV l + STUB_SIZE * l.length := by
  induction l with
  | nil => simp [sumSize, sumKV]
  | cons s t ih =>
    rw [sumSize_cons, sumKV_cons, ih]
    simp only [List.length_cons, STUB_SIZE]
    omega

theorem sumSize_reverse (l : List Stub) : sumSize l.reverse = sumSize l := by
  simp [sumSize, List.map_reverse, List.sum_reverse]

theorem sumSize_take_add_drop (l : List Stub) (k : Nat) :
    sumSize (l.take k) + sumSize (l.drop k) = sumSize l := by
  have h : sumSize (l.take k ++ l.drop k) = sumSize (l.take k) + sumSize (l.drop k) := by
    simp [sumSize]
  rw [List.take_append_drop] at h
  omega

/-- `calcTotalDataSize` is `sumSize` of the stub directory. -/
theorem calcTotalDataSize_eq (p : Page) : p.calcTotalDataSize = sumSize p.stubs := rfl

theorem wf_numStub_le {p : Page} (hWf : PageWf p) : p.numStub ≤ UPPER := by
  have h1 := hWf.recLo
  have h2 := hWf.recHi
  simp only [HEADER_SIZE, PAGE_SIZE, STUB_SIZE, UPPER] at *
  omega

theorem wf_sumSize_le {p : Page} (hWf : PageWf p) :
    sumSize p.stubs ≤ PAGE_SIZE - HEADER_SIZE := by
  have h1 := hWf.recLo
  have h2 := hWf.recHi
  have h3 := hWf.sumRec
  have h4 := sumSize_split p.stubs
  have h5 : sumKV p.stubs = (p.stubs.map (fun s => s.key.length + s.value.length)).sum := rfl
  rw [← h5] at h3
  simp only [HEADER_SIZE, PAGE_SIZE, STUB_SIZE, Page.numStub] at *
  omega

/-- The items of a strictly ascending page are sorted by key. -/
theorem items_pairwise_of_asc (L : CmpLaws cmp) {p : Page} (hasc : StrictAsc cmp p) :
    List.Pairwise (fun a b : List Nat × List Nat => cmp a.1 b.1 < 0) p.items := by
  rw [Page.items, List.pairwise_map]
  exact (ascStubs_iff_ascK p).2 (ascK_of_strictAsc L hasc)

/-- Two key-sorted item sequences that are permutations of each other are
equal. -/
theorem items_eq_of_perm_sorted (L : CmpLaws cmp)
    {xs ys : List (List Nat × List Nat)} (hperm : List.Perm xs ys)
    (hx : List.Pairwise (fun a b : List Nat × List Nat => cmp a.1 b.1 < 0) xs)
    (hy : List.Pairwise (fun a b : List Nat × List Nat => cmp a.1 b.1 < 0) ys) :
    xs = ys := by
  haveI : IsAntisymm (List Nat × List Nat)
      (fun a b : List Nat × List Nat => cmp a.1 b.1 < 0) :=
    ⟨fun a b h1 h2 => absurd ((L.asymm _ _).1 h1) (by omega)⟩
  exact List.eq_of_perm_of_sorted hperm hx hy

/-- Recover the key multiset of a page from an items characterization. -/
theorem key_mem_of_items_eq {p : Page} {l : List Stub}
    (h : p.items = l.map (fun s => (s.key, s.value))) :
    ∀ s ∈ p.stubs, ∃ t ∈ l, t.key = s.key := by
  intro s hs
  have hmem : (s.key, s.value) ∈ p.items := by
    rw [Page.items]
    exact List.mem_map_of_mem _ hs
  rw [h] at hmem
  obtain ⟨t, ht, hteq⟩ := List.mem_map.1 hmem
  exact ⟨t, ht, congrArg Prod.fst hteq⟩

/-- The reversed stub directory of a strictly ascending page has pairwise
distinct keys. -/
theorem pairwiseNe_reverse_of_asc (L : CmpLaws cmp) {p : Page}
    (hasc : StrictAsc cmp p) :
    List.Pairwise (fun a b : Stub => cmp a.key b.key ≠ 0) p.stubs.reverse := by
  rw [List.pairwise_reverse]
  apply ((ascStubs_iff_ascK p).2 (ascK_of_strictAsc L hasc)).imp
  intro a b hab
  have := (L.asymm a.key b.key).1 hab
  omega

theorem erase_eq_of_normal {p : Page} {k : List Nat}
    (h : isNormalIndex (lowerBoundStub cmp p k) = true) :
    erase cmp p k = (p.eraseStub (lowerBoundStub cmp p k), true) := by
  unfold Page.erase
  rw [if_pos h]

theorem erase_eq_of_not_normal {p : Page} {k : List Nat}
    (h : ¬ isNormalIndex (lowerBoundStub cmp p k) = true) :
    erase cmp p k = (p, false) := by
  unfold Page.erase
  rw [if_neg h]

end MoreLemmas

end Btree

namespace Btree

section StructLemmas

open Page

variable {cmp : List Nat → List Nat → Int}

/-- Strictly-less pairwise keys give pairwise-distinct keys. -/
theorem pairwiseNe_of_lt (L : CmpLaws cmp) {l : List Stub}
    (h : List.Pairwise (fun a b : Stub => cmp a.key b.key < 0) l) :
    List.Pairwise (fun a b : Stub => cmp a.key b.key ≠ 0) l := by
  apply h.imp
  intro a b hab
  omega

/-- ... and so does the reversed directory. -/
theorem pairwiseNe_reverse_of_lt (L : CmpLaws cmp) {l : List Stub}
    (h : List.Pairwise (fun a b : Stub => cmp a.key b.key < 0) l) :
    List.Pairwise (fun a b : Stub => cmp a.key b.key ≠ 0) l.reverse := by
  rw [List.pairwise_reverse]
  apply h.imp
  intro a b hab
  have := (L.asymm a.key b.key).1 hab
  omega

/-- A cleared page is trivially strictly ascending. -/
theorem clearPage_asc (p : Page) : StrictAsc cmp (Page.clearPage p) := by
  intro i hi
  simp [Page.clearPage, Page.numStub] at hi

/-- A fresh page is trivially strictly ascending. -/
theorem freshPage_asc : StrictAsc cmp Page.freshPage := clearPage_asc _

theorem sumKV_reverse (l : List Stub) : sumKV l.reverse = sumKV l := by
  simp [sumKV, List.map_reverse, List.sum_reverse]

/-- On an invariant-satisfying page, the value size of any live stub is at
most `totalDataSize`. -/
theorem wf_tds_ge_value {p : Page} (hWf : PageWf p) {j : Nat}
    (hj : j < p.numStub) : (p.valueAt j).length ≤ p.totalDataSize := by
  have hmem : p.stubs.getD j dStub ∈ p.stubs := by
    rw [List.getD_eq_getElem p.stubs dStub hj]
    exact List.getElem_mem hj
  have hmem2 : (p.stubs.getD j dStub).key.length +
      (p.stubs.getD j dStub).value.length + STUB_SIZE ∈
      p.stubs.map (fun s => s.key.length + s.value.length + STUB_SIZE) :=
    List.mem_map_of_mem _ hmem
  have hle := List.single_le_sum
    (fun x (_ : x ∈ p.stubs.map (fun s => s.key.length + s.value.length + STUB_SIZE))
      => Nat.zero_le x) _ hmem2
  have hsum : p.totalDataSize = p.calcTotalDataSize := hWf.tds
  rw [Page.calcTotalDataSize] at hsum
  rw [Page.valueAt]
  omega

/-- Full characterization of a successful `merge`: faithful to the
record-by-record reverse-order reinsertion loop. -/
theorem merge_success_spec (L : CmpLaws cmp) {self other : Page}
    (hascS : StrictAsc cmp self) (hascO : StrictAsc cmp other)
    (hnum : self.numStub + other.numStub ≤ UPPER)
    (hdisj : ∀ s ∈ other.stubs, ∀ x ∈ self.stubs, cmp s.key x.key ≠ 0)
    (htds : other.totalDataSize = sumSize other.stubs)
    (hspace : ¬ self.freeSpace < other.totalDataSize) :
    Page.merge cmp self other =
      (insertAll cmp self other.stubs.reverse, Page.clearPage other, true) ∧
    List.Perm (Page.merge cmp self other).1.items (self.items ++ other.items) ∧
    StrictAsc cmp (Page.merge cmp self other).1 := by
  have hmerge : Page.merge cmp self other =
      (insertAll cmp self other.stubs.reverse, Page.clearPage other, true) := by
    unfold Page.merge
    rw [if_neg hspace]
  obtain ⟨hperm, hasc, _, _, _, _, _⟩ :=
    insertAll_spec L other.stubs.reverse self
      (by rw [List.length_reverse]; exact hnum)
      hascS
      (fun s hs x hx => hdisj s (List.mem_reverse.1 hs) x hx)
      (pairwiseNe_reverse_of_lt L
        ((ascStubs_iff_ascK other).2 (ascK_of_strictAsc L hascO)))
      (by rw [sumSize_reverse, ← htds]; omega)
  refine ⟨hmerge, ?_, ?_⟩
  · rw [hmerge]
    refine hperm.trans ?_
    apply List.Perm.append_left
    have hrev : (other.stubs.reverse.map (fun s => (s.key, s.value)))
        = other.items.reverse := by
      rw [Page.items, List.map_reverse]
    rw [hrev]
    exact List.reverse_perm other.items
  · rw [hmerge]
    exact hasc

/-- Full characterization of `split` in half-and-half mode. -/
theorem split_spec (L : CmpLaws cmp) (p : Page) (hWf : PageWf p)
    (hasc : StrictAsc cmp p) :
    (Page.split cmp p).1 = Page.clearPage p ∧
    (Page.split cmp p).2.1.items = p.items.take (p.numStub / 2) ∧
    (Page.split cmp p).2.2.items = p.items.drop (p.numStub / 2) ∧
    StrictAsc cmp (Page.split cmp p).2.1 ∧
    StrictAsc cmp (Page.split cmp p).2.2 ∧
    (Page.split cmp p).2.1.level = p.level ∧
    (Page.split cmp p).2.2.level = p.level ∧
    (Page.split cmp p).2.1.numStub = p.numStub / 2 ∧
    (Page.split cmp p).2.2.numStub = p.numStub - p.numStub / 2 ∧
    (Page.split cmp p).2.1.recEndOff =
      HEADER_SIZE + sumKV (p.stubs.take (p.numStub / 2)) ∧
    (Page.split cmp p).2.2.recEndOff =
      HEADER_SIZE + sumKV (p.stubs.drop (p.numStub / 2)) ∧
    (Page.split cmp p).2.1.totalDataSize = sumSize (p.stubs.take (p.numStub / 2)) ∧
    (Page.split cmp p).2.2.totalDataSize = sumSize (p.stubs.drop (p.numStub / 2)) := by
  have hstubs : List.Pairwise (fun a b : Stub => cmp a.key b.key < 0) p.stubs :=
    (ascStubs_iff_ascK p).2 (ascK_of_strictAsc L hasc)
  have hn168 : p.numStub ≤ 168 := by
    have h1 := hWf.recLo
    have h2 := hWf.recHi
    simp only [HEADER_SIZE, PAGE_SIZE, STUB_SIZE] at h1 h2
    omega
  have hsum := wf_sumSize_le hWf
  simp only [PAGE_SIZE, HEADER_SIZE] at hsum
  have hfreshFS : ∀ lvl : Nat,
      ({ Page.freshPage with level := lvl } : Page).freeSpace = 1008 := fun _ => rfl
  have hfreshAsc : ∀ lvl : Nat,
      StrictAsc cmp ({ Page.freshPage with level := lvl } : Page) := by
    intro lvl i hi
    simp [Page.freshPage, Page.clearPage, Page.numStub] at hi
  have htake := sumSize_take_add_drop p.stubs (p.numStub / 2)
  -- the left half
  have hspec0 := insertAll_spec L (p.stubs.take (p.numStub / 2)).reverse
    ({ Page.freshPage with level := p.level })
    (by
      rw [List.length_reverse, List.length_take]
      show 0 + _ ≤ UPPER
      simp only [UPPER, Page.numStub] at *
      omega)
    (hfreshAsc p.level)
    (fun s _ x hx => absurd hx (List.not_mem_nil x))
    (pairwiseNe_reverse_of_lt L (hstubs.sublist (List.take_sublist _ _)))
    (by rw [sumSize_reverse, hfreshFS]; omega)
  -- the right half
  have hspec1 := insertAll_spec L (p.stubs.drop (p.numStub / 2)).reverse
    ({ Page.freshPage with level := p.level })
    (by
      rw [List.length_reverse, List.length_drop]
      show 0 + _ ≤ UPPER
      simp only [UPPER, Page.numStub] at *
      omega)
    (hfreshAsc p.level)
    (fun s _ x hx => absurd hx (List.not_mem_nil x))
    (pairwiseNe_reverse_of_lt L (hstubs.sublist (List.drop_sublist _ _)))
    (by rw [sumSize_reverse, hfreshFS]; omega)
  obtain ⟨hperm0, hasc0, hlvl0, _, hrec0, htds0, hnum0⟩ := hspec0
  obtain ⟨hperm1, hasc1, hlvl1, _, hrec1, htds1, hnum1⟩ := hspec1
  have hsplit0 : (Page.split cmp p).2.1 =
      insertAll cmp ({ Page.freshPage with level := p.level })
        (p.stubs.take (p.numStub / 2)).reverse := rfl
  have hsplit1 : (Page.split cmp p).2.2 =
      insertAll cmp ({ Page.freshPage with level := p.level })
        (p.stubs.drop (p.numStub / 2)).reverse := rfl
  have hitems0 : (Page.split cmp p).2.1.items = p.items.take (p.numStub / 2) := by
    rw [hsplit0]
    apply items_eq_of_perm_sorted L
    · refine hperm0.trans ?_
      have : ((p.stubs.take (p.numStub / 2)).reverse.map
          (fun s => (s.key, s.value)))
          = ((p.stubs.take (p.numStub / 2)).map (fun s => (s.key, s.value))).reverse := by
        rw [List.map_reverse]
      rw [this]
      have hmt : p.items.take (p.numStub / 2)
          = (p.stubs.take (p.numStub / 2)).map (fun s => (s.key, s.value)) := by
        rw [Page.items, List.map_take]
      rw [hmt]
      have hfitems : ({ Page.freshPage with level := p.level } : Page).items = [] := rfl
      rw [hfitems, List.nil_append]
      exact List.reverse_perm _
    · exact items_pairwise_of_asc L hasc0
    · have := items_pairwise_of_asc L hasc
      exact this.sublist (List.take_sublist _ _)
  have hitems1 : (Page.split cmp p).2.2.items = p.items.drop (p.numStub / 2) := by
    rw [hsplit1]
    apply items_eq_of_perm_sorted L
    · refine hperm1.trans ?_
      have : ((p.stubs.drop (p.numStub / 2)).reverse.map
          (fun s => (s.key, s.value)))
          = ((p.stubs.drop (p.numStub / 2)).map (fun s => (s.key, s.value))).reverse := by
        rw [List.map_reverse]
      rw [this]
      have hmt : p.items.drop (p.numStub / 2)
          = (p.stubs.drop (p.numStub / 2)).map (fun s => (s.key, s.value)) := by
        rw [Page.items, List.map_drop]
      rw [hmt]
      have hfitems : ({ Page.freshPage with level := p.level } : Page).items = [] := rfl
      rw [hfitems, List.nil_append]
      exact List.reverse_perm _
    · exact items_pairwise_of_asc L hasc1
    · have := items_pairwise_of_asc L hasc
      exact this.sublist (List.drop_sublist _ _)
  refine ⟨rfl, hitems0, hitems1, ?_, ?_, ?_, ?_, ?_, ?_, ?_, ?_, ?_, ?_⟩
  · rw [hsplit0]; exact hasc0
  · rw [hsplit1]; exact hasc1
  · rw [hsplit0, hlvl0]
  · rw [hsplit1, hlvl1]
  · rw [hsplit0, hnum0, List.length_reverse, List.length_take]
    show 0 + _ = _
    simp only [Page.numStub]
    omega
  · rw [hsplit1, hnum1, List.length_reverse, List.length_drop]
    show 0 + _ = _
    simp only [Page.numStub]
    omega
  · rw [hsplit0, hrec0, sumKV_reverse]
    rfl
  · rw [hsplit1, hrec1, sumKV_reverse]
    rfl
  · rw [hsplit0, htds0, sumSize_reverse]
    show (0 : Nat) + sumSize (p.stubs.take (p.numStub / 2))
      = sumSize (p.stubs.take (p.numStub / 2))
    omega
  · rw [hsplit1, htds1, sumSize_reverse]
    show (0 : Nat) + sumSize (p.stubs.drop (p.numStub / 2))
      = sumSize (p.stubs.drop (p.numStub / 2))
    omega

end StructLemmas

end Btree

namespace Btree

/-- `BtreeMap::insert` specialised to the state in which the tree's root
is its only page (a leaf `L`): `searchLeaf` returns the root, so the code
runs `if (!L.canInsert(size) && L.shouldGc()) L.gc();` then
`if (!L.canInsert(size)) L = splitLeaf(L, key);` and finally
`return L.insert(key, value, err)`.  In the root case `splitLeaf` calls
`L.split()` into `(p0, p1)`, rebuilds the emptied root as a branch over
them (which touches neither `p0` nor `p1`'s record contents), and returns
`p0` if `key < p1.minKey` else `p1`; only the returned page feeds the
final `insert`, whose `(bool, error)` outcome this function is. -/
def rootLeafInsertResult (cmp : List Nat → List Nat → Int) (L : Page)
    (k v : List Nat) : Bool × Option BtreeError :=
  let sz := k.length + v.length
  let L1 := if ¬ L.canInsert sz ∧ L.shouldGc then Page.gc cmp L else L
  if L1.canInsert sz then (Page.insert cmp L1 k v).2
  else
    let s := Page.split cmp L1
    let tgt := if cmp k (Page.minKeyD s.2.2) < 0 then s.2.1 else s.2.2
    (Page.insert cmp tgt k v).2

/-- A 600-byte value, as stored for a map instantiated with a 600-byte
value type. -/
def vBig : List Nat := List.replicate 600 0

/-- The root leaf of a freshly constructed `BtreeMap` (level 0, no
parent). -/
def leafC2 : Page := { Page.freshPage with level := 0 }

/-- The root leaf after `insert(5, vBig)` with 4-byte keys: one live
604-byte record. -/
def pageC2 : Page := (Page.insert cmpB leafC2 [0, 0, 0, 5] vBig).1

/-- Concrete two-record page (keys `[3] < [5]`) satisfying the page
invariants; used to evaluate the theorems on concrete inputs. -/
def pageW : Page :=
  { recEndOff := 20, stubs := [⟨16, [3], [7]⟩, ⟨18, [5], [9]⟩],
    level := 0, parent := none, totalDataSize := 16 }

/-- Concrete one-record page (key `[5]`). -/
def pageW1 : Page :=
  { recEndOff := 18, stubs := [⟨16, [5], [7]⟩],
    level := 0, parent := none, totalDataSize := 8 }

/-- Concrete one-record page (key `[5]`, value `[9]`); the "right" page of
the C3 counterexample. -/
def pageS : Page :=
  { recEndOff := 18, stubs := [⟨16, [5], [9]⟩],
    level := 0, parent := none, totalDataSize := 8 }

end Btree

namespace Btree

/-- Concrete one-record page (key `[3]`); the "left" page of the C3
witness. -/
def pageO3 : Page :=
  { recEndOff := 18, stubs := [⟨16, [3], [7]⟩],
    level := 0, parent := none, totalDataSize := 8 }

/-- Concrete two-record page with dead record bytes (`recEndOff = 30`
while only 4 record bytes are live), exercising `gc` compaction. -/
def pageG : Page :=
  { recEndOff := 30, stubs := [⟨16, [3], [7]⟩, ⟨24, [5], [9]⟩],
    level := 3, parent := some 7, totalDataSize := 16 }

section MoreWf

open Page

variable {cmp : List Nat → List Nat → Int}

theorem wf_numStub168 {p : Page} (hWf : PageWf p) : p.numStub ≤ 168 := by
  have h1 := hWf.recLo
  have h2 := hWf.recHi
  simp only [HEADER_SIZE, PAGE_SIZE, STUB_SIZE] at h1 h2
  omega

theorem freshWithLevel_asc (lvl : Nat) :
    StrictAsc cmp ({ Page.freshPage with level := lvl } : Page) := by
  intro i hi
  simp [Page.freshPage, Page.clearPage, Page.numStub] at hi

/-- `AscK` from a decidable `Pairwise` fact. -/
theorem ascK_of_pairwise {cmp : List Nat → List Nat → Int} {ks : List (List Nat)}
    (h : List.Pairwise (fun a b : List Nat => cmp a b < 0) ks) : AscK cmp ks := h

theorem sumSize_items (l : List Stub) :
    sumSize l = ((l.map (fun s => (s.key, s.value))).map
      (fun kv : List Nat × List Nat => kv.1.length + kv.2.length + STUB_SIZE)).sum := by
  rw [List.map_map]
  rfl

end MoreWf

section Claims1

open Page

/-- C8: For every page whose stub keys are strictly ascending and every
search key: `lowerBound` returns EMPTY when the page has no stubs, UPPER
when the key is strictly greater than every stored key, and otherwise the
smallest slot index `i` such that the search key is less than or equal to
`key(i)`; in particular, when an exact match exists, the matching slot is
returned. -/
theorem C8_lowerBound_spec (cmp : List Nat → List Nat → Int) (L : CmpLaws cmp)
    (p : Page) (hasc : StrictAsc cmp p) (k : List Nat) :
    (p.numStub = 0 → lowerBoundStub cmp p k = EMPTY) ∧
    (p.numStub ≠ 0 → (∀ j, j < p.numStub → cmp (p.keyAt j) k < 0) →
      lowerBoundStub cmp p k = UPPER) ∧
    (p.numStub ≠ 0 → ¬ (∀ j, j < p.numStub → cmp (p.keyAt j) k < 0) →
      lowerBoundStub cmp p k < p.numStub ∧
      cmp k (p.keyAt (lowerBoundStub cmp p k)) ≤ 0 ∧
      (∀ j, j < lowerBoundStub cmp p k → 0 < cmp k (p.keyAt j))) ∧
    (∀ j, j < p.numStub → cmp k (p.keyAt j) = 0 →
      lowerBoundStub cmp p k = j) := by
  refine ⟨fun h0 => lowerBoundStub_empty k h0, ?_, ?_, ?_⟩
  · intro h0 hall
    exact lowerBoundStub_upper h0 (hall _ (by omega))
  · intro h0 hnall
    have hu : ¬ cmp (p.keyAt (p.numStub - 1)) k < 0 := by
      intro hlast
      apply hnall
      intro j hj
      by_cases hj2 : j = p.numStub - 1
      · rw [hj2]; exact hlast
      · have hjlt : cmp (p.keyAt j) (p.keyAt (p.numStub - 1)) < 0 := by
          rw [keyAt_eq_keys_getD, keyAt_eq_keys_getD]
          exact ascK_getD (ascK_of_strictAsc L hasc) (by omega)
            (by rw [keys_length]; omega)
        exact L.lt_trans _ _ _ hjlt hlast
    exact lowerBoundStub_found L hasc h0 hu
  · intro j hj heq
    exact lb_eq_of_eq L hasc hj heq

/-- Witness for C8 at a concrete page: on `pageW` (keys `[3] < [5]`) the
exact match `[5]` is found at slot 1. -/
theorem C8_witness :
    StrictAsc cmpB pageW ∧ lowerBoundStub cmpB pageW [5] = 1 := by
  have hasc : StrictAsc cmpB pageW := strictAsc_of_ascK (ascK_of_pairwise (by decide))
  exact ⟨hasc,
    (C8_lowerBound_spec cmpB cmpB_laws pageW hasc [5]).2.2.2 1 (by decide) (by decide)⟩

/-- C1 counterexample: on the one-record page `pageW1` (single key `[5]`),
the key `[3]` is absent, yet `erase` returns `true` and removes the record
with key `[5]`, leaving the page changed (it becomes empty). -/
theorem C1_counterexample :
    pageW1.keys = [[5]] ∧ cmpB [3] [5] ≠ 0 ∧
    Page.erase cmpB pageW1 [3] =
      ({ recEndOff := 18, stubs := [], level := 0, parent := none,
         totalDataSize := 0 }, true) := by
  refine ⟨by decide, by decide, by decide⟩

/-- C1 (amended): `erase(keyBytes)` returns `false` and leaves the page
unchanged exactly when the page is empty or the key is strictly greater
than every stored key; otherwise it returns `true` and removes exactly the
stub at the lower-bound slot — in particular, when a stub with an equal
key exists, exactly that record's stub is removed. -/
theorem C1_amended_erase (cmp : List Nat → List Nat → Int) (L : CmpLaws cmp)
    (p : Page) (hWf : PageWf p) (hasc : StrictAsc cmp p) (k : List Nat) :
    ((p.numStub = 0 ∨ cmp (p.keyAt (p.numStub - 1)) k < 0) →
      Page.erase cmp p k = (p, false)) ∧
    (p.numStub ≠ 0 → ¬ cmp (p.keyAt (p.numStub - 1)) k < 0 →
      Page.erase cmp p k = (p.eraseStub (lowerBoundStub cmp p k), true) ∧
      lowerBoundStub cmp p k < p.numStub) ∧
    (∀ j, j < p.numStub → cmp k (p.keyAt j) = 0 →
      Page.erase cmp p k = (p.eraseStub j, true)) := by
  refine ⟨?_, ?_, ?_⟩
  · intro h
    by_cases h0 : p.numStub = 0
    · exact erase_eq_of_not_normal (by
        rw [lowerBoundStub_empty k h0, isNormalIndex_EMPTY]
        simp)
    · have hup : cmp (p.keyAt (p.numStub - 1)) k < 0 := by
        rcases h with h | h
        · omega
        · exact h
      exact erase_eq_of_not_normal (by
        rw [lowerBoundStub_upper h0 hup, isNormalIndex_UPPER]
        simp)
  · intro h0 hu
    obtain ⟨hlt, _, _⟩ := lowerBoundStub_found L hasc h0 hu
    exact ⟨erase_eq_of_normal (isNormalIndex_of_lt hlt (wf_numStub_le hWf)), hlt⟩
  · intro j hj heq
    have hlb := lb_eq_of_eq L hasc hj heq
    have := @erase_eq_of_normal cmp p k
      (by rw [hlb]; exact isNormalIndex_of_lt hj (wf_numStub_le hWf))
    rwa [hlb] at this

/-- Witness for C1 (amended) at concrete pages: erasing `[9]` (above both
keys of `pageW`) fails and leaves the page unchanged; erasing the present
key `[5]` removes exactly stub 1. -/
theorem C1_witness :
    PageWf pageW ∧ StrictAsc cmpB pageW ∧
    Page.erase cmpB pageW [9] = (pageW, false) ∧
    Page.erase cmpB pageW [5] = (pageW.eraseStub 1, true) := by
  have hWf : PageWf pageW := ⟨by decide, by decide, by decide, by decide⟩
  have hasc : StrictAsc cmpB pageW := strictAsc_of_ascK (ascK_of_pairwise (by decide))
  refine ⟨hWf, hasc, ?_, ?_⟩
  · exact (C1_amended_erase cmpB cmpB_laws pageW hWf hasc [9]).1 (Or.inr (by decide))
  · exact (C1_amended_erase cmpB cmpB_laws pageW hWf hasc [5]).2.2 1 (by decide) (by decide)

/-- C10: For every invariant-satisfying page, `insert` with a key that
already exists returns `false` with KEY_EXISTS (the key-existence check
precedes the free-space check, so this holds even when the record would
not fit), and every failing `insert` leaves the page unchanged. -/
theorem C10_insert_key_exists_priority (cmp : List Nat → List Nat → Int)
    (L : CmpLaws cmp) (p : Page) (hWf : PageWf p) (hasc : StrictAsc cmp p)
    (k v : List Nat) :
    ((Page.insert cmp p k v).2.1 = false → (Page.insert cmp p k v).1 = p) ∧
    ((∃ j, j < p.numStub ∧ cmp k (p.keyAt j) = 0) →
      Page.insert cmp p k v = (p, false, some BtreeError.KEY_EXISTS)) := by
  refine ⟨insert_false_unchanged p k v, ?_⟩
  intro hex
  exact insert_found p k v
    ((found_iff L hasc (wf_numStub_le hWf) k).2 hex)

/-- Witness for C10: inserting key `[3]` (present in `pageW`) with a value
too large to fit still reports KEY_EXISTS, not NO_SPACE, and leaves the
page unchanged. -/
theorem C10_witness :
    ¬ pageW.canInsert (([3] : List Nat).length + (List.replicate 1200 1).length) = true ∧
    Page.insert cmpB pageW [3] (List.replicate 1200 1) =
      (pageW, false, some BtreeError.KEY_EXISTS) := by
  have hWf : PageWf pageW := ⟨by decide, by decide, by decide, by decide⟩
  have hasc : StrictAsc cmpB pageW := strictAsc_of_ascK (ascK_of_pairwise (by decide))
  refine ⟨by decide, ?_⟩
  exact (C10_insert_key_exists_priority cmpB cmpB_laws pageW hWf hasc
    [3] (List.replicate 1200 1)).2 ⟨0, by decide, by decide⟩

/-- C7: For every invariant-satisfying, strictly ascending page:
`update(keyBytes, newValueBytes)` returns `false` with KEY_NOT_EXISTS when
no stub's key equals the search key; returns `false` with NO_SPACE when
the new value's size exceeds the stored value's size; and otherwise
returns `true`, overwrites the value in place, sets the stub's `valueSize`
to the new size, and decreases `totalDataSize` by the size difference; on
every failure the page is unchanged. -/
theorem C7_update_spec (cmp : List Nat → List Nat → Int) (L : CmpLaws cmp)
    (p : Page) (hWf : PageWf p) (hasc : StrictAsc cmp p) (k v : List Nat) :
    ((∀ j, j < p.numStub → cmp k (p.keyAt j) ≠ 0) →
      Page.update cmp p k v = (p, false, some BtreeError.KEY_NOT_EXISTS)) ∧
    (∀ j, j < p.numStub → cmp k (p.keyAt j) = 0 →
      ((p.valueAt j).length < v.length →
        Page.update cmp p k v = (p, false, some BtreeError.NO_SPACE)) ∧
      (v.length ≤ (p.valueAt j).length →
        Page.update cmp p k v =
          ({ p with
             stubs := p.stubs.set j { p.stubs.getD j dStub with value := v },
             totalDataSize :=
               p.totalDataSize - ((p.valueAt j).length - v.length) },
           true, none) ∧
        (Page.update cmp p k v).1.totalDataSize +
          ((p.valueAt j).length - v.length) = p.totalDataSize)) := by
  constructor
  · intro hall
    have hnf := (not_found_iff L hasc (wf_numStub_le hWf) k).2 hall
    unfold Page.update
    rw [if_pos (not_and_or.1 hnf)]
  · intro j hj heq
    have hlb := lb_eq_of_eq L hasc hj heq
    have hnorm : isNormalIndex (lowerBoundStub cmp p k) = true := by
      rw [hlb]; exact isNormalIndex_of_lt hj (wf_numStub_le hWf)
    have hcond : ¬ (¬ isNormalIndex (lowerBoundStub cmp p k) = true ∨
        cmp k (p.keyAt (lowerBoundStub cmp p k)) ≠ 0) := by
      push_neg
      exact ⟨hnorm, by rw [hlb]; exact heq⟩
    constructor
    · intro hbig
      unfold Page.update
      rw [if_neg hcond]
      unfold Page.updateStub
      rw [hlb, if_pos hbig]
    · intro hle
      have hres : Page.update cmp p k v =
          ({ p with
             stubs := p.stubs.set j { p.stubs.getD j dStub with value := v },
             totalDataSize :=
               p.totalDataSize - ((p.valueAt j).length - v.length) },
           true, none) := by
        unfold Page.update
        rw [if_neg hcond]
        unfold Page.updateStub
        rw [hlb, if_neg (by omega)]
      refine ⟨hres, ?_⟩
      rw [hres]
      have := wf_tds_ge_value hWf hj
      show p.totalDataSize - ((p.valueAt j).length - v.length) +
        ((p.valueAt j).length - v.length) = p.totalDataSize
      omega

/-- Witness for C7: on `pageW`, updating key `[5]` with a two-byte value
fails NO_SPACE and leaves the page unchanged; updating with the one-byte
value `[4]` succeeds and rewrites exactly that value. -/
theorem C7_witness :
    Page.update cmpB pageW [5] [1, 2] = (pageW, false, some BtreeError.NO_SPACE) ∧
    (Page.update cmpB pageW [5] [4]).1.items = [([3], [7]), ([5], [4])] := by
  have hWf : PageWf pageW := ⟨by decide, by decide, by decide, by decide⟩
  have hasc : StrictAsc cmpB pageW := strictAsc_of_ascK (ascK_of_pairwise (by decide))
  constructor
  · exact ((C7_update_spec cmpB cmpB_laws pageW hWf hasc [5] [1, 2]).2 1
      (by decide) (by decide)).1 (by decide)
  · rw [(((C7_update_spec cmpB cmpB_laws pageW hWf hasc [5] [4]).2 1
      (by decide) (by decide)).2 (by decide)).1]
    decide

end Claims1

end Btree

namespace Btree

section Claims2

open Page

/-- C4: Every completed page operation (insert, erase, update, updateKey,
gc, split, merge, clear) applied to invariant-satisfying pages whose stub
keys are strictly ascending yields pages whose stub keys are again
strictly ascending: for every `0 ≤ i < numStubs − 1`, the key at stub `i`
is strictly less than the key at stub `i + 1`. -/
theorem C4_ops_preserve_strict_ascending (cmp : List Nat → List Nat → Int)
    (L : CmpLaws cmp) (p q : Page) (hWfp : PageWf p) (hascp : StrictAsc cmp p)
    (hWfq : PageWf q) (hascq : StrictAsc cmp q) (k v : List Nat) :
    StrictAsc cmp (Page.insert cmp p k v).1 ∧
    StrictAsc cmp (Page.erase cmp p k).1 ∧
    StrictAsc cmp (Page.update cmp p k v).1 ∧
    (∀ i, i < p.numStub → StrictAsc cmp (Page.updateKeyStub cmp p i k).1) ∧
    StrictAsc cmp (Page.gc cmp p) ∧
    StrictAsc cmp (Page.split cmp p).1 ∧
    StrictAsc cmp (Page.split cmp p).2.1 ∧
    StrictAsc cmp (Page.split cmp p).2.2 ∧
    StrictAsc cmp (Page.merge cmp p q).1 ∧
    StrictAsc cmp (Page.merge cmp p q).2.1 ∧
    StrictAsc cmp (Page.clearPage p) := by
  have hp168 := wf_numStub168 hWfp
  have hq168 := wf_numStub168 hWfq
  have hpU : p.numStub ≤ UPPER := wf_numStub_le hWfp
  refine ⟨insert_asc L hpU hascp k v, ?_, update_asc L hascp k v, ?_, ?_, ?_, ?_, ?_, ?_, ?_,
    clearPage_asc p⟩
  · by_cases h : isNormalIndex (lowerBoundStub cmp p k) = true
    · rw [erase_eq_of_normal h]
      exact eraseStub_asc L hascp _
    · rw [erase_eq_of_not_normal h]
      exact hascp
  · intro i hi
    exact updateKeyStub_asc L hascp hi k
  · have h1 : StrictAsc cmp (insertAll cmp Page.freshPage p.stubs) := by
      apply insertAll_asc L p.stubs Page.freshPage
      · show 0 + p.stubs.length ≤ UPPER
        simp only [UPPER]
        simp only [Page.numStub] at hp168
        omega
      · exact freshPage_asc
    exact strictAsc_of_keys_eq rfl h1
  · exact clearPage_asc p
  · apply insertAll_asc L _ _ ?_ (freshWithLevel_asc p.level)
    show 0 + (p.stubs.take (p.numStub / 2)).reverse.length ≤ UPPER
    rw [List.length_reverse, List.length_take]
    simp only [UPPER, Page.numStub] at *
    omega
  · apply insertAll_asc L _ _ ?_ (freshWithLevel_asc p.level)
    show 0 + (p.stubs.drop (p.numStub / 2)).reverse.length ≤ UPPER
    rw [List.length_reverse, List.length_drop]
    simp only [UPPER, Page.numStub] at *
    omega
  · unfold Page.merge
    by_cases h : p.freeSpace < q.totalDataSize
    · rw [if_pos h]
      exact hascp
    · rw [if_neg h]
      show StrictAsc cmp (insertAll cmp p q.stubs.reverse)
      apply insertAll_asc L _ _ ?_ hascp
      rw [List.length_reverse]
      simp only [UPPER, Page.numStub] at *
      omega
  · unfold Page.merge
    by_cases h : p.freeSpace < q.totalDataSize
    · rw [if_pos h]
      exact hascq
    · rw [if_neg h]
      exact clearPage_asc q

/-- Witness for C4 on concrete pages: two of the preserved-ascending facts
obtained by applying the claim theorem at `pageW` and `pageS`. -/
theorem C4_witness :
    StrictAsc cmpB (Page.insert cmpB pageW [4] [8]).1 ∧
    StrictAsc cmpB (Page.gc cmpB pageW) := by
  have hWfp : PageWf pageW := ⟨by decide, by decide, by decide, by decide⟩
  have hWfq : PageWf pageS := ⟨by decide, by decide, by decide, by decide⟩
  have hascp : StrictAsc cmpB pageW := strictAsc_of_ascK (ascK_of_pairwise (by decide))
  have hascq : StrictAsc cmpB pageS := strictAsc_of_ascK (ascK_of_pairwise (by decide))
  have h := C4_ops_preserve_strict_ascending cmpB cmpB_laws pageW pageS
    hWfp hascp hWfq hascq [4] [8]
  exact ⟨h.1, h.2.2.2.2.1⟩

/-- C9: For every invariant-satisfying, strictly ascending page, `gc()`
leaves the sequence of (key, value) pairs in stub order unchanged and
leaves the page's parent pointer and level equal to their values before
the call. -/
theorem C9_gc_preserves (cmp : List Nat → List Nat → Int) (L : CmpLaws cmp)
    (p : Page) (hWf : PageWf p) (hasc : StrictAsc cmp p) :
    (Page.gc cmp p).items = p.items ∧
    (Page.gc cmp p).parent = p.parent ∧
    (Page.gc cmp p).level = p.level := by
  obtain ⟨hperm, hasc', _, _, _, _, _⟩ := insertAll_spec L p.stubs Page.freshPage
    (by
      show 0 + p.stubs.length ≤ UPPER
      have := wf_numStub168 hWf
      simp only [UPPER, Page.numStub] at *
      omega)
    freshPage_asc
    (fun s _ x hx => absurd hx (List.not_mem_nil x))
    (pairwiseNe_of_lt L ((ascStubs_iff_ascK p).2 (ascK_of_strictAsc L hasc)))
    (by
      show sumSize p.stubs ≤ Page.freshPage.freeSpace
      have := wf_sumSize_le hWf
      simp only [PAGE_SIZE, HEADER_SIZE] at this
      show sumSize p.stubs ≤ 1008
      omega)
  refine ⟨?_, rfl, rfl⟩
  have hgci : (Page.gc cmp p).items = (insertAll cmp Page.freshPage p.stubs).items := rfl
  rw [hgci]
  apply items_eq_of_perm_sorted L
  · have hfe : Page.freshPage.items = [] := rfl
    rw [hfe, List.nil_append] at hperm
    exact hperm
  · exact items_pairwise_of_asc L hasc'
  · exact items_pairwise_of_asc L hasc

/-- Witness for C9 on `pageG` (a page with dead record bytes): `gc` keeps
the items, parent, and level while compacting `recEndOff` from 30 to 20. -/
theorem C9_witness :
    (Page.gc cmpB pageG).items = pageG.items ∧
    (Page.gc cmpB pageG).parent = pageG.parent ∧
    (Page.gc cmpB pageG).level = pageG.level ∧
    (Page.gc cmpB pageG).recEndOff = 20 ∧ pageG.recEndOff = 30 := by
  have hWf : PageWf pageG := ⟨by decide, by decide, by decide, by decide⟩
  have hasc : StrictAsc cmpB pageG := strictAsc_of_ascK (ascK_of_pairwise (by decide))
  have h := C9_gc_preserves cmpB cmpB_laws pageG hWf hasc
  exact ⟨h.1, h.2.1, h.2.2, by decide, by decide⟩

/-- C5: For every invariant-satisfying, strictly ascending page with `n`
records, `split()` in half-and-half mode produces a left page holding
exactly the records at stub indices `[0, n/2)` and a right page holding
exactly the records at `[n/2, n)`, each in the original stub order and at
the original level, and leaves the source page cleared (empty); when `n`
is odd the left page receives `⌊n/2⌋` records. -/
theorem C5_split_half_and_half (cmp : List Nat → List Nat → Int)
    (L : CmpLaws cmp) (p : Page) (hWf : PageWf p) (hasc : StrictAsc cmp p) :
    (Page.split cmp p).2.1.items = p.items.take (p.numStub / 2) ∧
    (Page.split cmp p).2.2.items = p.items.drop (p.numStub / 2) ∧
    (Page.split cmp p).2.1.numStub = p.numStub / 2 ∧
    (Page.split cmp p).2.2.numStub = p.numStub - p.numStub / 2 ∧
    (Page.split cmp p).2.1.level = p.level ∧
    (Page.split cmp p).2.2.level = p.level ∧
    (Page.split cmp p).1 = Page.clearPage p := by
  obtain ⟨h1, h2, h3, _, _, h6, h7, h8, h9, _, _, _, _⟩ := split_spec L p hWf hasc
  exact ⟨h2, h3, h8, h9, h6, h7, h1⟩

/-- Witness for C5: splitting the two-record `pageW` puts `([3],[7])` in
the left page and `([5],[9])` in the right, at level 0, and clears the
source. -/
theorem C5_witness :
    (Page.split cmpB pageW).2.1.items = [([3], [7])] ∧
    (Page.split cmpB pageW).2.2.items = [([5], [9])] ∧
    (Page.split cmpB pageW).1 = Page.clearPage pageW := by
  have hWf : PageWf pageW := ⟨by decide, by decide, by decide, by decide⟩
  have hasc : StrictAsc cmpB pageW := strictAsc_of_ascK (ascK_of_pairwise (by decide))
  have h := C5_split_half_and_half cmpB cmpB_laws pageW hWf hasc
  refine ⟨?_, ?_, h.2.2.2.2.2.2⟩
  · rw [h.1]; decide
  · rw [h.2.1]; decide

/-- C6: For every invariant-satisfying, strictly ascending page, calling
`split()` to obtain `(p0, p1)` and then `p1.merge(p0)` succeeds and yields
in `p1` an in-order traversal equal to the original page's in-order
traversal before the split. -/
theorem C6_split_merge_roundtrip (cmp : List Nat → List Nat → Int)
    (L : CmpLaws cmp) (p : Page) (hWf : PageWf p) (hasc : StrictAsc cmp p) :
    (Page.merge cmp (Page.split cmp p).2.2 (Page.split cmp p).2.1).2.2 = true ∧
    (Page.merge cmp (Page.split cmp p).2.2 (Page.split cmp p).2.1).1.items
      = p.items := by
  obtain ⟨hclr, hit0, hit1, hasc0, hasc1, hlvl0, hlvl1, hnum0, hnum1,
    hrec0, hrec1, htds0, htds1⟩ := split_spec L p hWf hasc
  have hstubs : List.Pairwise (fun a b : Stub => cmp a.key b.key < 0) p.stubs :=
    (ascStubs_iff_ascK p).2 (ascK_of_strictAsc L hasc)
  have hn168 := wf_numStub168 hWf
  have hsum := wf_sumSize_le hWf
  simp only [PAGE_SIZE, HEADER_SIZE] at hsum
  have htad := sumSize_take_add_drop p.stubs (p.numStub / 2)
  -- item characterizations of the two halves as stub batches
  have hmi0 : (Page.split cmp p).2.1.items =
      (p.stubs.take (p.numStub / 2)).map (fun s => (s.key, s.value)) := by
    rw [hit0, Page.items, List.map_take]
  have hmi1 : (Page.split cmp p).2.2.items =
      (p.stubs.drop (p.numStub / 2)).map (fun s => (s.key, s.value)) := by
    rw [hit1, Page.items, List.map_drop]
  -- data sizes of the two halves
  have hsz0 : sumSize (Page.split cmp p).2.1.stubs
      = sumSize (p.stubs.take (p.numStub / 2)) := by
    rw [sumSize_items (Page.split cmp p).2.1.stubs,
      sumSize_items (p.stubs.take (p.numStub / 2))]
    have he : ((Page.split cmp p).2.1.stubs.map (fun s => (s.key, s.value)))
        = (Page.split cmp p).2.1.items := rfl
    rw [he, hmi0]
  -- cross-key distinctness between the two halves
  have hcross : ∀ t ∈ p.stubs.take (p.numStub / 2),
      ∀ u ∈ p.stubs.drop (p.numStub / 2), cmp t.key u.key < 0 := by
    have hpw : List.Pairwise (fun a b : Stub => cmp a.key b.key < 0)
        (p.stubs.take (p.numStub / 2) ++ p.stubs.drop (p.numStub / 2)) := by
      rw [List.take_append_drop]
      exact hstubs
    exact (List.pairwise_append.1 hpw).2.2
  have hdisj : ∀ s ∈ (Page.split cmp p).2.1.stubs,
      ∀ x ∈ (Page.split cmp p).2.2.stubs, cmp s.key x.key ≠ 0 := by
    intro s hs x hx
    obtain ⟨t, ht, htk⟩ := key_mem_of_items_eq hmi0 s hs
    obtain ⟨u, hu, huk⟩ := key_mem_of_items_eq hmi1 x hx
    rw [← htk, ← huk]
    have := hcross t ht u hu
    omega
  have hnum : (Page.split cmp p).2.2.numStub + (Page.split cmp p).2.1.numStub
      ≤ UPPER := by
    rw [hnum0, hnum1]
    simp only [UPPER]
    omega
  have hlen_drop : (p.stubs.drop (p.numStub / 2)).length
      = p.numStub - p.numStub / 2 := by
    rw [List.length_drop]
    rfl
  have hsplit_drop := sumSize_split (p.stubs.drop (p.numStub / 2))
  have hsplit_take := sumSize_split (p.stubs.take (p.numStub / 2))
  have hspace : ¬ (Page.split cmp p).2.2.freeSpace
      < (Page.split cmp p).2.1.totalDataSize := by
    rw [freeSpace_eq, hnum1, hrec1, htds0]
    simp only [STUB_SIZE] at hsplit_drop hsplit_take
    simp only [HEADER_SIZE]
    rw [hlen_drop] at hsplit_drop
    omega
  have htds : (Page.split cmp p).2.1.totalDataSize
      = sumSize (Page.split cmp p).2.1.stubs := by
    rw [htds0, hsz0]
  obtain ⟨hm, hperm, hascm⟩ := merge_success_spec L hasc1 hasc0 hnum hdisj htds hspace
  constructor
  · rw [hm]
  · apply items_eq_of_perm_sorted L
    · refine hperm.trans ?_
      rw [hit0, hit1]
      refine (List.perm_append_comm).trans ?_
      rw [List.take_append_drop]
    · exact items_pairwise_of_asc L hascm
    · exact items_pairwise_of_asc L hasc
  
/-- Witness for C6: the split halves of `pageW` merge back into a page
whose traversal is exactly `pageW`'s. -/
theorem C6_witness :
    (Page.merge cmpB (Page.split cmpB pageW).2.2 (Page.split cmpB pageW).2.1).2.2
      = true ∧
    (Page.merge cmpB (Page.split cmpB pageW).2.2 (Page.split cmpB pageW).2.1).1.items
      = [([3], [7]), ([5], [9])] := by
  have hWf : PageWf pageW := ⟨by decide, by decide, by decide, by decide⟩
  have hasc : StrictAsc cmpB pageW := strictAsc_of_ascK (ascK_of_pairwise (by decide))
  have h := C6_split_merge_roundtrip cmpB cmpB_laws pageW hWf hasc
  refine ⟨h.1, ?_⟩
  rw [h.2]
  decide

end Claims2

end Btree

namespace Btree

section Claims3

open Page

/-- C3 counterexample: `pageS` (right, key `[5]` value `[9]`) and `pageW1`
(left, key `[5]` value `[7]`) satisfy the free-space precondition, and
`merge` returns `true` — but the merged page holds only `pageS`'s record:
`pageW1`'s record `([5],[7])` is silently dropped by the failing internal
`insert` (KEY_EXISTS), so `self` does not contain all records of both
pages as the claim states. -/
theorem C3_counterexample :
    pageW1.totalDataSize ≤ pageS.freeSpace ∧
    (Page.merge cmpB pageS pageW1).2.2 = true ∧
    pageS.items = [([5], [9])] ∧ pageW1.items = [([5], [7])] ∧
    (Page.merge cmpB pageS pageW1).1.items = [([5], [9])] := by
  refine ⟨by decide, by decide, by decide, by decide, by decide⟩

/-- C3 (amended): for invariant-satisfying, strictly ascending pages whose
key sets are disjoint (as the tree guarantees for adjacent siblings),
`merge(other)` returns `false` and leaves both pages unchanged iff
`other.totalDataSize` exceeds `self.freeSpace`; otherwise it returns
`true`, after which `self` contains all records of both pages in strictly
ascending key order and `other` is cleared (empty). -/
theorem C3_amended_merge (cmp : List Nat → List Nat → Int) (L : CmpLaws cmp)
    (self other : Page) (hWfS : PageWf self) (hascS : StrictAsc cmp self)
    (hWfO : PageWf other) (hascO : StrictAsc cmp other)
    (hdisj : ∀ s ∈ other.stubs, ∀ x ∈ self.stubs, cmp s.key x.key ≠ 0) :
    ((Page.merge cmp self other).2.2 = false ↔
      self.freeSpace < other.totalDataSize) ∧
    (self.freeSpace < other.totalDataSize →
      Page.merge cmp self other = (self, other, false)) ∧
    (¬ self.freeSpace < other.totalDataSize →
      (Page.merge cmp self other).2.2 = true ∧
      List.Perm (Page.merge cmp self other).1.items
        (self.items ++ other.items) ∧
      StrictAsc cmp (Page.merge cmp self other).1 ∧
      (Page.merge cmp self other).2.1 = Page.clearPage other) := by
  have hnum : self.numStub + other.numStub ≤ UPPER := by
    have h1 := wf_numStub168 hWfS
    have h2 := wf_numStub168 hWfO
    simp only [UPPER]
    omega
  have htds : other.totalDataSize = sumSize other.stubs := hWfO.tds
  by_cases hc : self.freeSpace < other.totalDataSize
  · have hfail : Page.merge cmp self other = (self, other, false) := by
      unfold Page.merge
      rw [if_pos hc]
    refine ⟨?_, fun _ => hfail, fun habs => absurd hc habs⟩
    rw [hfail]
    simp [hc]
  · obtain ⟨hm, hperm, hascm⟩ := merge_success_spec L hascS hascO hnum hdisj htds hc
    refine ⟨?_, fun habs => absurd habs hc, fun _ => ⟨by rw [hm], hperm, hascm, by rw [hm]⟩⟩
    rw [hm]
    simp [hc]

/-- Witness for C3 (amended): merging disjoint single-record pages
(`pageO3`, key `[3]`, into `pageS`, key `[5]`) succeeds and clears the
left page. -/
theorem C3_witness :
    PageWf pageO3 ∧ ¬ pageS.freeSpace < pageO3.totalDataSize ∧
    (Page.merge cmpB pageS pageO3).2.2 = true ∧
    (Page.merge cmpB pageS pageO3).2.1 = Page.clearPage pageO3 := by
  have hWfS : PageWf pageS := ⟨by decide, by decide, by decide, by decide⟩
  have hWfO : PageWf pageO3 := ⟨by decide, by decide, by decide, by decide⟩
  have hascS : StrictAsc cmpB pageS := strictAsc_of_ascK (ascK_of_pairwise (by decide))
  have hascO : StrictAsc cmpB pageO3 := strictAsc_of_ascK (ascK_of_pairwise (by decide))
  have h := (C3_amended_merge cmpB cmpB_laws pageS pageO3 hWfS hascS hWfO hascO
    (by decide)).2.2 (by decide)
  exact ⟨hWfO, by decide, h.1, h.2.2.2⟩

/-- C2: the claim states that tree-level `insert` never surfaces NO_SPACE
for a record that fits in a page.  The code intends this
(`assert(p->canInsert(size))` before the final page insert, and
`assert(!p0->empty())` inside `splitLeaf`), but for a record larger than
half the usable page (here 4-byte key + 600-byte value on the 1024-byte
page) a full leaf holds a single record, `split()` leaves the left page
empty — firing `assert(!p0->empty())` in debug builds — and the returned
right page cannot hold the new record, so with assertions disabled the
tree-level insert returns `false` with NO_SPACE: evaluated here on the
modelled root-leaf insert path, together with the empty left half that
breaks the split invariant. -/
theorem C2_no_space_surfaces :
    rootLeafInsertResult cmpB pageC2 [0, 0, 0, 10] vBig
      = (false, some BtreeError.NO_SPACE) ∧
    pageC2.items = [([0, 0, 0, 5], vBig)] ∧
    vBig.length + 4 + STUB_SIZE ≤ PAGE_SIZE - HEADER_SIZE ∧
    (Page.split cmpB pageC2).2.1.numStub = 0 := by
  refine ⟨by decide, by decide, by decide, by decide⟩

end Claims3

end Btree
